import Mathlib

/-!
Verification development for the 1G1R ROM set generator (rehashed).

Shallow embedding of the resolution engine of src/generate.py and
src/modules/utils.py.  Python strings are modelled as lists of characters
(PyStr), Python dicts as association lists in insertion order, and the
filesystem predicates (is_zipfile, regex matchers compiled from the tag
patterns) as explicit function parameters.  Machine-level concerns
(hashing itself, I/O, threads) are abstracted: the per-file result
dictionaries produced by the worker threads are passed to the merge step
as an explicit list, exactly as the joined intermediate_results list is
in index_files.
-/

set_option maxHeartbeats 1000000

namespace RomsetGen

/-- Python strings, modelled as lists of characters. -/
abbrev PyStr := List Char

/-- Characters the Python str.strip() / str.isspace() treat as whitespace:
space, tab, newline, carriage return, vertical tab, form feed. -/
def pyIsSpace (c : Char) : Bool :=
  c == ' ' || c == '\t' || c == '\n' || c == '\r' || c.toNat == 11 || c.toNat == 12

/-- Model of str.strip(): drop whitespace from both ends. -/
def pyStrip (s : PyStr) : PyStr :=
  ((s.dropWhile pyIsSpace).reverse.dropWhile pyIsSpace).reverse

/-- Model of str.lower() (ASCII, which covers every string the program compares). -/
def pyLower (s : PyStr) : PyStr := s.map Char.toLower

/-- Model of str.upper() (ASCII). -/
def pyUpper (s : PyStr) : PyStr := s.map Char.toUpper

/-- Model of utils.is_valid: true iff the string is non-empty and not all whitespace. -/
def is_valid (x : PyStr) : Bool :=
  if x.isEmpty then false
  else if x.all pyIsSpace then false
  else true

/-- Helper for get_index: index of the first occurrence of item, counting from n
(models list.index, which raises ValueError when the item is absent). -/
def idxOfAux (item : PyStr) : List PyStr → Nat → Option Nat
  | [], _ => none
  | a :: as, n => if a = item then some n else idxOfAux item as (n + 1)

/-- Model of utils.get_index: list.index(item) with a default for the empty list
or a missing item (the ValueError branch). -/
def get_index (ls : List PyStr) (item : PyStr) (default : Int) : Int :=
  match idxOfAux item ls 0 with
  | some i => (i : Int)
  | none => default

/-- Model of utils.to_int_list: each character code multiplied by the factor. -/
def to_int_list (string : PyStr) (multiplier : Int) : List Int :=
  string.map (fun x => multiplier * (x.toNat : Int))

/-- Model of utils.get: element at the index, or 0 when out of range.  In the
program it is only applied to lists of segment lengths, hence Nat. -/
def get (ls : List Nat) (index : Nat) : Nat :=
  if index < ls.length then ls.getD index 0 else 0

/-- Model of Python max() over a list of naturals.  The program only calls it on
non-empty lists (Python raises ValueError on an empty one); on those the fold
from 0 agrees with the built-in. -/
def maxNat (l : List Nat) : Nat := l.foldl Nat.max 0

/-- Model of str.split for a one-character separator: s.split(sep) keeps empty
pieces, and the empty string yields one empty piece. -/
def splitOn (sep : Char) : PyStr → List PyStr
  | [] => [[]]
  | c :: cs =>
    if c == sep then [] :: splitOn sep cs
    else
      match splitOn sep cs with
      | s :: ss => (c :: s) :: ss
      | [] => [[c]]

/-- Model of s.split for the dot separator used by add_padding. -/
def splitOnDot (s : PyStr) : List PyStr := splitOn '.' s

/-- Model of sep.join for the dot separator used by add_padding. -/
def joinDots : List PyStr → PyStr
  | [] => []
  | p :: ps => p ++ (if ps.isEmpty then [] else '.' :: joinDots ps)

/-- One padded part: zeros prepended up to the width (Python multiplies the pad
string by a possibly negative count, which yields the empty string, matching
Nat subtraction here). -/
def padSeg (width : Nat) (part : PyStr) : PyStr :=
  List.replicate (width - part.length) '0' ++ part

/-- The in-place padding loop of add_padding: part i is padded to max_lengths i.
Python indexes max_lengths directly; i is always in range there, so the
out-of-range default 0 of get is never reached on the program's inputs. -/
def padPartsFrom (max_lengths : List Nat) : Nat → List PyStr → List PyStr
  | _, [] => []
  | i, p :: ps => padSeg (get max_lengths i) p :: padPartsFrom max_lengths (i + 1) ps

/-- The max_lengths list of add_padding: for each part position up to the
maximum part count, the maximum segment length across all strings. -/
def max_lengths_of (strings : List PyStr) : List Nat :=
  let parts_list := strings.map splitOnDot
  let lengths := parts_list.map (fun parts => parts.map List.length)
  let max_parts := maxNat (parts_list.map List.length)
  (List.range max_parts).map (fun i => maxNat (lengths.map (fun l => get l i)))

/-- Model of utils.add_padding (src/modules/utils.py lines 71-97): split each
string on dots, compute per-position maximum segment lengths across the whole
list, left-pad every segment with zeros to that maximum, and rejoin. -/
def add_padding (strings : List PyStr) : List PyStr :=
  ((strings.map splitOnDot).map
    (fun parts => padPartsFrom (max_lengths_of strings) 0 parts)).map joinDots

/-- Segment-position maximum in the words of the specification: the maximum
segment length at position k across the whole input list, counting a string
without a k-th segment as 0. -/
def segMaxLen (strings : List PyStr) (k : Nat) : Nat :=
  maxNat (strings.map (fun s => get ((splitOnDot s).map List.length) k))

/-- Decimal-digit character (code points 48 to 57). -/
def isDigitCh (c : Char) : Bool := 48 ≤ c.toNat && c.toNat ≤ 57

/-- Numeric value of a decimal-digit string, as int() computes it. -/
def decVal (s : PyStr) : Nat := s.foldl (fun a c => 10 * a + (c.toNat - 48)) 0

/-- Strict lexicographic order on character lists by code point, as Python
compares strings: a proper prefix is smaller, otherwise the first differing
character decides. -/
def lexLt : PyStr → PyStr → Bool
  | _, [] => false
  | [], _ :: _ => true
  | a :: as, b :: bs => if a = b then lexLt as bs else decide (a < b)

/-- Strict lexicographic order on lists of naturals: segment-by-segment
numeric comparison, a proper prefix being smaller. -/
def numLexLt : List Nat → List Nat → Bool
  | _, [] => false
  | [], _ :: _ => true
  | a :: as, b :: bs => if a = b then numLexLt as bs else decide (a < b)

/-- Model of utils.get_or_default: a regex match is abstracted as
Option (Option PyStr), where the outer layer is match-vs-no-match and the
inner layer is whether capture group 1 participated.  An empty captured group
is falsy in Python and also falls back to the default. -/
def get_or_default (m : Option (Option PyStr)) (default : PyStr) : PyStr :=
  let version : Option PyStr := match m with | some g => g | none => none
  match version with
  | some v => if v.isEmpty then default else v
  | none => default

/-- The NOT_PRERELEASE sentinel of generate.py. -/
def NOT_PRERELEASE : PyStr := "Z".toList

/-- Model of generate.parse_prerelease (lines 296-298). -/
def parse_prerelease (m : Option (Option PyStr)) : PyStr :=
  get_or_default m NOT_PRERELEASE

/-- Case-insensitive character comparison, as the IGNORECASE flag induces on
the ASCII literals of the tag patterns. -/
def ciChar (a b : Char) : Bool := a.toLower == b.toLower

/-- The character class of the captured sub-tag in BETA_REGEX, under
IGNORECASE: letters, digits and the dot. -/
def isBetaSub (c : Char) : Bool :=
  ('a' ≤ c && c ≤ 'z') || ('A' ≤ c && c ≤ 'Z') || ('0' ≤ c && c ≤ '9') || c == '.'

/-- Attempt of BETA_REGEX at the current position: the literal open paren and
the word Beta (case-insensitive), then the optional group of whitespace
followed by one or more sub-tag characters, then the close paren.  When the
greedy group cannot be completed up to the close paren, the engine drops the
optional group and requires the close paren immediately, capturing nothing. -/
def matchBetaHere : PyStr → Option (Option (Option PyStr))
  | lp :: b :: e :: t :: a :: rest =>
    if lp == '(' && ciChar b 'B' && ciChar e 'e' && ciChar t 't' && ciChar a 'a' then
      let afterSpaces := rest.dropWhile pyIsSpace
      let sub := afterSpaces.takeWhile isBetaSub
      let tail := afterSpaces.drop sub.length
      if !sub.isEmpty && tail.head? == some ')' then some (some (some sub))
      else
        match rest with
        | ')' :: _ => some (some none)
        | _ => none
    else none
  | _ => none

/-- Model of BETA_REGEX.search: first position at which the pattern matches,
scanning left to right; the result carries capture group 1 in the encoding of
get_or_default (some g on a match, none otherwise). -/
def beta_regex_search : PyStr → Option (Option PyStr)
  | [] => none
  | c :: cs =>
    match matchBetaHere (c :: cs) with
    | some g => g
    | none => beta_regex_search cs

/-- Record of modules/classes.RegionData.  Modelled from the spec: the class
itself is not under src/; spec section 3 gives its fields as a region code, an
optional compiled detection pattern, and an ordered language list.  Every
pattern in the static table is a plain literal, so a compiled pattern is
modelled by its literal text. -/
structure RegionData where
  code : PyStr
  pattern : Option PyStr
  languages : List PyStr
deriving DecidableEq

/-- The static region table of generate.py (lines 177-211), each pattern a
case-insensitive literal. -/
def COUNTRY_REGION_CORRELATION : List RegionData := [
  ⟨"ARG".toList, some "Argentina".toList, ["es".toList]⟩,
  ⟨"ASI".toList, some "Asia".toList, ["zh".toList]⟩,
  ⟨"AUS".toList, some "Australia".toList, ["en".toList]⟩,
  ⟨"BRA".toList, some "Brazil".toList, ["pt".toList]⟩,
  ⟨"CAN".toList, some "Canada".toList, ["en".toList, "fr".toList]⟩,
  ⟨"CHN".toList, some "China".toList, ["zh".toList]⟩,
  ⟨"COL".toList, some "Colombia".toList, ["es".toList]⟩,
  ⟨"DAN".toList, some "Denmark".toList, ["da".toList]⟩,
  ⟨"EUR".toList, some "Europe".toList, ["en".toList]⟩,
  ⟨"FIN".toList, some "Finland".toList, ["fi".toList]⟩,
  ⟨"FRA".toList, some "France".toList, ["fr".toList]⟩,
  ⟨"GER".toList, some "Germany".toList, ["de".toList]⟩,
  ⟨"GRE".toList, some "Greece".toList, ["el".toList]⟩,
  ⟨"HK".toList, some "Hong Kong".toList, ["zh".toList]⟩,
  ⟨"ITA".toList, some "Italy".toList, ["it".toList]⟩,
  ⟨"JPN".toList, some "Japan".toList, ["ja".toList]⟩,
  ⟨"KOR".toList, some "Korea".toList, ["ko".toList]⟩,
  ⟨"LAM".toList, some "Latin America".toList, ["en".toList, "es".toList]⟩,
  ⟨"MEX".toList, some "Mexico".toList, ["es".toList]⟩,
  ⟨"HOL".toList, some "Netherlands".toList, ["nl".toList]⟩,
  ⟨"NZ".toList, some "New Zealand".toList, ["en".toList]⟩,
  ⟨"NOR".toList, some "Norway".toList, ["no".toList]⟩,
  ⟨"PER".toList, some "Peru".toList, ["es".toList]⟩,
  ⟨"POR".toList, some "Portugal".toList, ["pt".toList]⟩,
  ⟨"RUS".toList, some "Russia".toList, ["ru".toList]⟩,
  ⟨"SCA".toList, some "Scandinavia".toList, ["en".toList]⟩,
  ⟨"SPA".toList, some "Spain".toList, ["es".toList]⟩,
  ⟨"SWE".toList, some "Sweden".toList, ["sv".toList]⟩,
  ⟨"TAI".toList, some "Taiwan".toList, ["zh".toList]⟩,
  ⟨"UK".toList, some "United Kingdom".toList, ["en".toList]⟩,
  ⟨"USA".toList, some "USA".toList, ["en".toList]⟩,
  ⟨"UNK".toList, some "Unknown".toList, ["en".toList]⟩,
  ⟨"WOR".toList, some "World".toList, ["en".toList]⟩]

/-- Fuel-indexed scanner behind sections: every step consumes at least one
character, so fuel bounded below by the remaining length never runs out. -/
def sectionsFuel : Nat → PyStr → List PyStr
  | 0, _ => []
  | _, [] => []
  | fuel + 1, c :: cs =>
    if c == '(' then
      let content := cs.takeWhile (fun x => !(x == '(') && !(x == ')'))
      match cs.drop content.length with
      | ')' :: rest2 =>
        if content.isEmpty then sectionsFuel fuel cs
        else content :: sectionsFuel fuel rest2
      | _ => sectionsFuel fuel cs
    else sectionsFuel fuel cs

/-- Model of SECTIONS_REGEX.finditer: the leftmost non-overlapping occurrences
of a parenthesized run of one or more non-parenthesis characters, returning
the captured contents.  On a failed attempt the scan advances one character,
exactly as the regex engine does.  The fuel equals the string length, which
the scanner never exhausts since every step shortens the string. -/
def sections (s : PyStr) : List PyStr := sectionsFuel s.length s

/-- Full case-insensitive match of a literal pattern against a token: for the
literal patterns of the region table, re.fullmatch with IGNORECASE holds
exactly when the lowercased token equals the lowercased literal. -/
def fullmatchIgnoreCase (pattern : PyStr) (tok : PyStr) : Bool :=
  pyLower tok == pyLower pattern

/-- Whether one region table row matches one trimmed token (the inner loop of
parse_region_data: a row without a pattern never matches). -/
def regionMatches (rd : RegionData) (element : PyStr) : Bool :=
  match rd.pattern with
  | some pat => fullmatchIgnoreCase pat element
  | none => false

/-- Model of generate.parse_region_data (lines 301-320): for every
parenthesized section, split on commas, trim each token, and collect every
table row whose pattern fully matches the token, in table order. -/
def parse_region_data (name : PyStr) : List RegionData :=
  (sections name).flatMap (fun sec =>
    ((splitOn ',' sec).map pyStrip).flatMap (fun element =>
      COUNTRY_REGION_CORRELATION.filter (fun rd => regionMatches rd element)))

/-- Association-list lookup, first binding wins: Python dict membership and
subscript access (dicts here always hold unique keys, built via dictSet). -/
def lookupKey {β : Type} : List (PyStr × β) → PyStr → Option β
  | [], _ => none
  | p :: ps, k => if p.1 = k then some p.2 else lookupKey ps k

/-- Python dict assignment d[k] = v: update in place when the key exists,
append otherwise (insertion order preserved). -/
def dictSet {β : Type} (r : List (PyStr × β)) (k : PyStr) (v : β) : List (PyStr × β) :=
  if (lookupKey r k).isSome then r.map (fun p => if p.1 = k then (k, v) else p)
  else r ++ [(k, v)]

/-- The final digest index: lowercase digest to optional located path. -/
abbrev Index := List (PyStr × Option PyStr)

/-- One key-value merge step of index_files (lines 926-937): only keys already
present in the seeded result are touched; line 932 guards an assignment on the
current value not being a truthy ZIP path, but line 937 then assigns
unconditionally, so the guarded assignment is dead and the incoming value
always lands. -/
def mergeValue (is_zipfile : PyStr → Bool) (result : Index) (key : PyStr)
    (value : Option PyStr) : Index :=
  match lookupKey result key with
  | some curr =>
    let zipcur : Bool := match curr with | some p => is_zipfile p | none => false
    let r1 := if !zipcur then dictSet result key value else result
    dictSet r1 key value
  | none => result

/-- Merge of one worker-produced per-file dictionary into the result, in the
dictionary's insertion order (lines 926-937). -/
def mergeIntermediate (is_zipfile : PyStr → Bool) (result : Index)
    (inter : List (PyStr × PyStr)) : Index :=
  inter.foldl (fun r kv => mergeValue is_zipfile r kv.1 (some kv.2)) result

/-- Merge of all intermediate results, in list order (lines 924-937). -/
def mergeIntermediates (is_zipfile : PyStr → Bool) (result : Index)
    (intermediate_results : List (List (PyStr × PyStr))) : Index :=
  intermediate_results.foldl (fun r inter => mergeIntermediate is_zipfile r inter) result

/-- The member-scan phase of process_file (lines 958-989): each non-directory
archive member's digest is mapped to the container path, in archive order. -/
def memberIndex (path : PyStr) (memberDigests : List PyStr) : List (PyStr × PyStr) :=
  memberDigests.foldl (fun r d => dictSet r d path) []

/-- The raw-bytes phase of process_file (lines 997-1017): record the digest of
the file's own bytes, unless an existing mapping for that digest is a non-ZIP
path (a Path object is always truthy in Python, so the guard on line 1015
reduces to the is_zipfile test on the existing mapping). -/
def rawStep (is_zipfile : PyStr → Bool) (result : List (PyStr × PyStr))
    (rawDigest path : PyStr) : List (PyStr × PyStr) :=
  match lookupKey result rawDigest with
  | none => dictSet result rawDigest path
  | some p => if is_zipfile p then dictSet result rawDigest path else result

/-- Model of generate.process_file (lines 944-1023): hashing itself is
abstracted, so the digests of the archive members and of the raw bytes are
inputs. -/
def process_file (is_zipfile : PyStr → Bool) (path : PyStr)
    (memberDigests : List PyStr) (rawDigest : PyStr)
    (also_check_archive : Bool) : List (PyStr × PyStr) :=
  let is_zip := is_zipfile path
  let result := if is_zip then memberIndex path memberDigests else []
  if !is_zip || also_check_archive then rawStep is_zipfile result rawDigest path
  else result

/-- Last value an intermediate dictionary assigns to a key during its merge,
starting from the current value: the characterization target of the merge
loop's inner fold. -/
def lastAssigned (k : PyStr) (inter : List (PyStr × PyStr)) (v : Option PyStr) : Option PyStr :=
  inter.foldl (fun acc kv => if kv.1 = k then some kv.2 else acc) v

/-- Last value any of the intermediate dictionaries assigns to a key, in merge
order, starting from the seeded value. -/
def finalAssigned (k : PyStr) (intermediate_results : List (List (PyStr × PyStr)))
    (v : Option PyStr) : Option PyStr :=
  intermediate_results.foldl (fun acc inter => lastAssigned k inter acc) v

/-- One rom element of a DAT game record.  Modelled from the spec: the record
type lives in the catalog parser (modules/datafile.py, not under src/); spec
section 6 gives it a name, a size and a digest.  A missing or empty sha1
attribute is falsy in Python; both are modelled by the empty string. -/
structure DatRom where
  name : PyStr
  size : Nat
  sha1 : PyStr
deriving DecidableEq

/-- One game record of a parsed DAT.  Modelled from the spec: the record type
lives in modules/datafile.py (not under src/); spec section 6 gives a name, an
optional clone-of reference, release regions and a rom list. -/
structure DatGame where
  name : PyStr
  cloneof : Option PyStr
  release : List (Option PyStr)
  rom : List DatRom
deriving DecidableEq

/-- Truthiness of an optional string attribute (None and the empty string are
both falsy in Python). -/
def optTruthy : Option PyStr → Bool
  | some s => !s.isEmpty
  | none => false

/-- The seeding loop of index_files (lines 794-799): every rom of every game
of the DAT contributes its lowercased sha1 as a key mapped to None. -/
def seedIndex (games : List DatGame) : Index :=
  games.foldl (fun r g =>
    g.rom.foldl (fun r rom_entry => dictSet r (pyLower rom_entry.sha1) none) r) []

/-- Model of generate.index_files (lines 773-940) with the directory scan
abstracted: the per-file dictionaries the worker threads append to
intermediate_results are given as an explicit list and merged, in order, into
the DAT-seeded result. -/
def index_files (is_zipfile : PyStr → Bool) (games : List DatGame)
    (intermediate_results : List (List (PyStr × PyStr))) : Index :=
  mergeIntermediates is_zipfile (seedIndex games) intermediate_results

/-- Record of modules/classes.GameEntry.  Modelled from the spec: the class is
not under src/; spec section 3 (GameVariant) lists the fields, in the order of
the constructor call in parse_games (lines 684-701). -/
structure GameEntry where
  is_bad : Bool
  is_prerelease : Bool
  region : PyStr
  languages : List PyStr
  input_index : Nat
  revision : PyStr
  version : PyStr
  sample : PyStr
  demo : PyStr
  beta : PyStr
  proto : PyStr
  is_parent : Bool
  name : PyStr
  rom : List DatRom
deriving DecidableEq

/-- The name-derived predicates parse_games consults, one per compiled tag
regex of generate.py (lines 214-255), abstracted as functions of the raw name;
the four prerelease families and the revision and version tags report their
search result in the Option-of-group encoding of get_or_default, and the
language tag reports the parsed code list of parse_languages. -/
structure NameMatchers where
  bios : PyStr → Bool
  unl : PyStr → Bool
  aftermarket : PyStr → Bool
  homebrew : PyStr → Bool
  pirate : PyStr → Bool
  bad : PyStr → Bool
  kiosk : PyStr → Bool
  promo : PyStr → Bool
  debug : PyStr → Bool
  program : PyStr → Bool
  enhancement_chip : PyStr → Bool
  beta : PyStr → Option (Option PyStr)
  demo : PyStr → Option (Option PyStr)
  sample : PyStr → Option (Option PyStr)
  proto : PyStr → Option (Option PyStr)
  rev : PyStr → Option (Option PyStr)
  ver : PyStr → Option (Option PyStr)
  parse_languages : PyStr → List PyStr

/-- The sixteen exclusion flags parse_games receives. -/
structure Filters where
  filter_bios : Bool
  filter_program : Bool
  filter_enhancement_chip : Bool
  filter_pirate : Bool
  filter_bad : Bool
  filter_aftermarket : Bool
  filter_homebrew : Bool
  filter_kiosk : Bool
  filter_promo : Bool
  filter_debug : Bool
  filter_unlicensed : Bool
  filter_unlicensed_strict : Bool
  filter_proto : Bool
  filter_beta : Bool
  filter_demo : Bool
  filter_sample : Bool
deriving DecidableEq

/-- Model of generate.is_present (lines 392-401). -/
def is_present (code : PyStr) (region_data : List RegionData) : Bool :=
  region_data.any (fun r => r.code == code)

/-- Model of generate.get_region_data (lines 343-372): uppercase the code,
look it up in the table, fall back to a fresh pattern-less entry.  The append
to the mutable global table is omitted: a later call with the same code
returns the same value either way, and the fresh entry, having no pattern,
never matches in parse_region_data. -/
def get_region_data (code : PyStr) : RegionData :=
  let c := if code.isEmpty then code else pyUpper code
  match COUNTRY_REGION_CORRELATION.find? (fun r => r.code == c) with
  | some r => r
  | none => ⟨c, none, []⟩

/-- Model of generate.get_languages (lines 375-389): first-seen-order union of
the default languages of the detected regions. -/
def get_languages (region_data_list : List RegionData) : List PyStr :=
  region_data_list.foldl (fun languages rd =>
    rd.languages.foldl (fun languages language =>
      if languages.contains language then languages else languages ++ [language])
      languages) []

/-- The per-game body of parse_games (lines 531-719) after the skip filters:
builds one GameEntry per detected region code, all sharing the game's rom
list.  Returns the (parent name, entry) pairs the game contributes. -/
def gameEntriesOf (m : NameMatchers) (input_index : Nat) (game : DatGame) :
    List (PyStr × GameEntry) :=
  let beta_match := m.beta game.name
  let demo_match := m.demo game.name
  let sample_match := m.sample game.name
  let proto_match := m.proto game.name
  let is_parent := !optTruthy game.cloneof
  let is_bad := m.bad game.name
  let beta := parse_prerelease beta_match
  let demo := parse_prerelease demo_match
  let sample := parse_prerelease sample_match
  let proto := parse_prerelease proto_match
  let is_prerelease :=
    beta_match.isSome || demo_match.isSome || sample_match.isSome || proto_match.isSome
  let revision := get_or_default (m.rev game.name) "0".toList
  let version := get_or_default (m.ver game.name) "0".toList
  let region_data0 := parse_region_data game.name
  let region_data := game.release.foldl (fun rd rel =>
    match rel with
    | some r => if !r.isEmpty && !(is_present r rd) then rd ++ [get_region_data r] else rd
    | none => rd) region_data0
  let languages0 := m.parse_languages game.name
  let languages := if languages0.isEmpty then get_languages region_data else languages0
  let parent_name := match game.cloneof with
    | some c => if c.isEmpty then game.name else c
    | none => game.name
  let region_codes := region_data.map (fun rd => rd.code)
  region_codes.map (fun region =>
    (parent_name,
     GameEntry.mk is_bad is_prerelease region languages input_index revision version
       sample demo beta proto is_parent game.name game.rom))

/-- Whether parse_games skips the game entirely (the filter cascade of lines
543-627, in source order). -/
def skipsGame (m : NameMatchers) (f : Filters) (exclude : PyStr → Bool)
    (game : DatGame) : Bool :=
  (f.filter_bios && m.bios game.name) ||
  (f.filter_unlicensed && m.unl game.name && !(m.aftermarket game.name) &&
    !(m.homebrew game.name)) ||
  (f.filter_unlicensed_strict && m.unl game.name) ||
  (f.filter_pirate && m.pirate game.name) ||
  (f.filter_bad && m.bad game.name) ||
  (f.filter_aftermarket && m.aftermarket game.name) ||
  (f.filter_homebrew && m.homebrew game.name) ||
  (f.filter_kiosk && m.kiosk game.name) ||
  (f.filter_promo && m.promo game.name) ||
  (f.filter_debug && m.debug game.name) ||
  (f.filter_program && m.program game.name) ||
  (f.filter_enhancement_chip && m.enhancement_chip game.name) ||
  (f.filter_beta && (m.beta game.name).isSome) ||
  (f.filter_demo && (m.demo game.name).isSome) ||
  (f.filter_sample && (m.sample game.name).isSome) ||
  (f.filter_proto && (m.proto game.name).isSome) ||
  exclude game.name

/-- Model of generate.parse_games (lines 505-722): the parent-keyed dict of
entry lists is flattened to (parent name, entry) pairs in insertion order;
grouping by the first component recovers the dict. -/
def parse_games (m : NameMatchers) (f : Filters) (exclude : PyStr → Bool)
    (games : List DatGame) : List (PyStr × GameEntry) :=
  games.enum.flatMap (fun p =>
    if skipsGame m f exclude p.2 then [] else gameEntriesOf m p.1 p.2)

/-- The copied_files set of the hash-mode candidate loop (lines 1946-2044):
the distinct located source paths over the candidate's rom references, in
first-located order (a Path is always truthy, so a located entry is exactly a
non-None index value). -/
def copied_paths (hash_index : PyStr → Option PyStr) (roms : List DatRom) : List PyStr :=
  roms.foldl (fun copied r =>
    match hash_index (pyLower r.sha1) with
    | some p => if copied.contains p then copied else copied ++ [p]
    | none => copied) []

/-- Model of the hash-mode candidate walk of one game bucket in main (lines
1921-2063), transfers and logging abstracted: stop the bucket on an
exclude-after match; otherwise take the first candidate whose copied_files set
is non-empty (line 2047), falling through to the next candidate when it is
empty. -/
def resolveBucket (hash_index : PyStr → Option PyStr) (exclude_after : PyStr → Bool) :
    List GameEntry → Option GameEntry
  | [] => none
  | entry :: rest =>
    if exclude_after entry.name then none
    else if !(copied_paths hash_index entry.rom).isEmpty then some entry
    else resolveBucket hash_index exclude_after rest

/-- Result of a run of validate_dat: fall through, or terminate via sys.exit
with the given process exit status (sys.exit() without an argument exits with
status 0). -/
inductive Outcome where
  | completed : Outcome
  | aborted (exitCode : Nat) : Outcome
deriving DecidableEq

/-- The final value of the lacks_sha1 flag of validate_dat (lines 412-445):
per game, the inner rom loop breaks at the first falsy sha1 setting the flag,
unless force is given, in which case every falsy sha1 resets it to False. -/
def lacks_sha1_final (games : List DatGame) (force : Bool) : Bool :=
  games.foldl (fun acc g =>
    match g.rom.find? (fun r => r.sha1.isEmpty) with
    | some _ => if force then false else true
    | none => acc) false

/-- Whether a prompt answer passes the gate (line 459): the stripped answer
must be the literal y or Y. -/
def answered_yes (answer : PyStr) : Bool :=
  pyStrip answer == "y".toList || pyStrip answer == "Y".toList

/-- Model of generate.validate_dat (lines 404-502): the interactive prompts
are abstracted by the two answers the user would type; force models the
--force flag in sys.argv.  Declining either gate calls sys.exit() with no
argument, an exit status of 0. -/
def validate_dat (games : List DatGame) (use_hashes force : Bool)
    (answer_sha1 answer_clone : PyStr) : Outcome :=
  let has_cloneof := games.any (fun g => optTruthy g.cloneof)
  let lacks_sha1 := lacks_sha1_final games force
  if use_hashes && lacks_sha1 && !(answered_yes answer_sha1) then Outcome.aborted 0
  else if !has_cloneof && !force && !(answered_yes answer_clone) then Outcome.aborted 0
  else Outcome.completed

/-- The UNSELECTED sentinel region score of generate.py. -/
def UNSELECTED : Int := 10000

/-- Record of modules/classes.Score.  Modelled from the spec: the class is not
under src/; spec section 3 (Score) lists the fields, in the order of the
constructor call in set_scores (lines 2372-2381). -/
structure Score where
  region : Int
  languages : Int
  revision : List Int
  version : List Int
  sample : List Int
  demo : List Int
  beta : List Int
  proto : List Int
deriving DecidableEq

/-- Model of generate.set_scores (lines 2328-2381) for one game entry (the
source loops over the list and assigns each entry's score attribute; the model
returns the assigned Score). -/
def set_scores (game : GameEntry) (selected_regions selected_languages : List PyStr)
    (language_weight : Int) (revision_asc version_asc : Bool) : Score :=
  let region_score := get_index selected_regions game.region UNSELECTED
  let languages_score :=
    (game.languages.map (fun lang =>
      (get_index selected_languages lang (-1) + 1) * (-language_weight))).sum
  let revision_int := to_int_list game.revision (if revision_asc then 1 else -1)
  let version_int := to_int_list game.version (if version_asc then 1 else -1)
  Score.mk region_score languages_score revision_int version_int
    (to_int_list game.sample (-1)) (to_int_list game.demo (-1))
    (to_int_list game.beta (-1)) (to_int_list game.proto (-1))

/-- Model of the --languages option parsing in main (lines 1305-1310): the
comma-split pieces of the argument (given here already split) are reversed,
validity-filtered, stripped and lowercased, so the user's most-preferred
language ends up last in selected_languages. -/
def parse_selected_languages (pieces : List PyStr) : List PyStr :=
  pieces.reverse.filterMap (fun x => if is_valid x then some (pyLower (pyStrip x)) else none)

/-! Lemmas about the dictionary model. -/

theorem lookupKey_append {β : Type} (r s : List (PyStr × β)) (k : PyStr) :
    lookupKey (r ++ s) k =
      match lookupKey r k with
      | some v => some v
      | none => lookupKey s k := by
  induction r with
  | nil => simp [lookupKey]
  | cons p ps ih =>
    by_cases hp : p.1 = k
    · simp [lookupKey, hp]
    · simp [lookupKey, hp, ih]

theorem lookupKey_mapReplace {β : Type} (r : List (PyStr × β)) (k k' : PyStr) (v : β) :
    lookupKey (r.map (fun p => if p.1 = k then (k, v) else p)) k' =
      if k' = k then (lookupKey r k).map (fun _ => v) else lookupKey r k' := by
  induction r with
  | nil => simp [lookupKey]
  | cons p ps ih =>
    by_cases hp : p.1 = k
    · by_cases hk : k' = k
      · subst hk
        simp [lookupKey, hp, ih]
      · have hne : ¬(k = k') := fun hh => hk hh.symm
        simp [lookupKey, hp, hne, ih, hk]
    · by_cases hq : p.1 = k'
      · by_cases hk : k' = k
        · exact absurd (hq.trans hk) hp
        · simp [lookupKey, hp, hq, hk]
      · simp [lookupKey, hp, hq, ih]

theorem lookupKey_dictSet {β : Type} (r : List (PyStr × β)) (k k' : PyStr) (v : β) :
    lookupKey (dictSet r k v) k' = if k' = k then some v else lookupKey r k' := by
  unfold dictSet
  by_cases hmem : (lookupKey r k).isSome
  · rw [if_pos hmem, lookupKey_mapReplace]
    obtain ⟨w, hw⟩ := Option.isSome_iff_exists.mp hmem
    simp [hw]
  · rw [if_neg hmem, lookupKey_append]
    have hnone : lookupKey r k = none := by
      cases h : lookupKey r k
      · rfl
      · rw [h] at hmem; simp at hmem
    by_cases hk : k' = k
    · subst hk
      simp [hnone, lookupKey]
    · have hne : ¬(k = k') := fun hh => hk hh.symm
      cases h : lookupKey r k'
      · simp [h, lookupKey, hne, hk]
      · simp [h, hk]

theorem lookupKey_mergeValue (z : PyStr → Bool) (r : Index) (k k' : PyStr)
    (v : Option PyStr) :
    lookupKey (mergeValue z r k v) k' =
      if k' = k ∧ (lookupKey r k).isSome then some v else lookupKey r k' := by
  unfold mergeValue
  cases h : lookupKey r k with
  | none => simp [h]
  | some curr =>
    simp only [h, Option.isSome_some, and_true]
    rw [lookupKey_dictSet]
    by_cases hk : k' = k
    · simp [hk]
    · rw [if_neg hk, if_neg hk]
      split
      · rw [lookupKey_dictSet, if_neg hk]
      · rfl

theorem lookupKey_mergeIntermediate (z : PyStr → Bool) (r : Index)
    (inter : List (PyStr × PyStr)) (k : PyStr) :
    lookupKey (mergeIntermediate z r inter) k =
      match lookupKey r k with
      | some v => some (lastAssigned k inter v)
      | none => none := by
  induction inter generalizing r with
  | nil =>
    cases h : lookupKey r k <;> simp [mergeIntermediate, lastAssigned, h]
  | cons kv rest ih =>
    have step : mergeIntermediate z r (kv :: rest) =
        mergeIntermediate z (mergeValue z r kv.1 (some kv.2)) rest := by
      simp [mergeIntermediate]
    rw [step, ih, lookupKey_mergeValue]
    by_cases hk : k = kv.1
    · cases h : lookupKey r k with
      | none =>
        have hcond : ¬(k = kv.1 ∧ (lookupKey r kv.1).isSome = true) := by
          rintro ⟨_, hs⟩
          rw [← hk, h] at hs
          simp at hs
        rw [if_neg hcond]
      | some v =>
        have hs : (lookupKey r kv.1).isSome = true := by rw [← hk, h]; rfl
        rw [if_pos ⟨hk, hs⟩]
        have e : lastAssigned k (kv :: rest) v = lastAssigned k rest (some kv.2) := by
          simp [lastAssigned, ← hk]
        simp only [e]
    · have hcond : ¬(k = kv.1 ∧ (lookupKey r kv.1).isSome = true) := by
        intro hh; exact hk hh.1
      rw [if_neg hcond]
      cases h : lookupKey r k with
      | none => rfl
      | some v =>
        have hk' : ¬(kv.1 = k) := fun hh => hk hh.symm
        have e : lastAssigned k (kv :: rest) v = lastAssigned k rest v := by
          simp [lastAssigned, hk']
        simp only [e]

theorem lookupKey_mergeIntermediates (z : PyStr → Bool) (r : Index)
    (inters : List (List (PyStr × PyStr))) (k : PyStr) :
    lookupKey (mergeIntermediates z r inters) k =
      match lookupKey r k with
      | some v => some (finalAssigned k inters v)
      | none => none := by
  induction inters generalizing r with
  | nil => cases h : lookupKey r k <;> simp [mergeIntermediates, finalAssigned, h]
  | cons inter rest ih =>
    have step : mergeIntermediates z r (inter :: rest) =
        mergeIntermediates z (mergeIntermediate z r inter) rest := by
      simp [mergeIntermediates]
    rw [step, ih, lookupKey_mergeIntermediate]
    cases h : lookupKey r k with
    | none => simp
    | some v => simp [finalAssigned]

theorem lastAssigned_indep (k : PyStr) (inter : List (PyStr × PyStr))
    (h : inter.any (fun kv => kv.1 == k) = true) (v w : Option PyStr) :
    lastAssigned k inter v = lastAssigned k inter w := by
  induction inter generalizing v w with
  | nil => simp at h
  | cons kv rest ih =>
    by_cases hk : kv.1 = k
    · simp [lastAssigned, hk]
    · have h' : rest.any (fun kv => kv.1 == k) = true := by
        simp only [List.any_cons] at h
        rcases Bool.or_eq_true_iff.mp h with h1 | h2
        · exact absurd (by simpa using h1) hk
        · exact h2
      have e1 : lastAssigned k (kv :: rest) v = lastAssigned k rest v := by
        simp [lastAssigned, hk]
      have e2 : lastAssigned k (kv :: rest) w = lastAssigned k rest w := by
        simp [lastAssigned, hk]
      rw [e1, e2]
      exact ih h' v w

theorem lastAssigned_not_mem (k : PyStr) (inter : List (PyStr × PyStr))
    (h : inter.any (fun kv => kv.1 == k) = false) (v : Option PyStr) :
    lastAssigned k inter v = v := by
  induction inter generalizing v with
  | nil => simp [lastAssigned]
  | cons kv rest ih =>
    rw [List.any_cons] at h
    obtain ⟨h1, h2⟩ := Bool.or_eq_false_iff.mp h
    have hk : ¬(kv.1 = k) := by simpa using h1
    have e1 : lastAssigned k (kv :: rest) v = lastAssigned k rest v := by
      simp [lastAssigned, hk]
    rw [e1]
    exact ih h2 v

theorem finalAssigned_idem (k : PyStr) (inters : List (List (PyStr × PyStr)))
    (v : Option PyStr) :
    finalAssigned k inters (finalAssigned k inters v) = finalAssigned k inters v := by
  induction inters generalizing v with
  | nil => simp [finalAssigned]
  | cons inter rest ih =>
    by_cases h : inter.any (fun kv => kv.1 == k) = true
    · have e : ∀ w, finalAssigned k (inter :: rest) w =
          finalAssigned k rest (lastAssigned k inter w) := by
        intro w; simp [finalAssigned]
      simp only [e]
      rw [lastAssigned_indep k inter h (finalAssigned k rest (lastAssigned k inter v))
        (lastAssigned k inter v)]
      rw [lastAssigned_indep k inter h (lastAssigned k inter v) v]
    · have h' : inter.any (fun kv => kv.1 == k) = false := by
        cases hb : inter.any (fun kv => kv.1 == k)
        · rfl
        · exact absurd hb h
      have e : ∀ w, finalAssigned k (inter :: rest) w = finalAssigned k rest w := by
        intro w
        simp only [finalAssigned, List.foldl_cons]
        rw [lastAssigned_not_mem k inter h' w]
      simp only [e]
      exact ih v

/-! Claim C1. -/

/-- C1 (counterexample): the claim that a digest mapped to a plain (non-ZIP)
path is never overwritten during the index_files merge is false.  With the
seeded index mapping digest d to None, merging a per-file dictionary that
locates d at the plain path and then one that locates d at a ZIP path leaves d
mapped to the ZIP path: the intermediate plain mapping is overwritten. -/
theorem index_files_merge_overwrites_nonzip_cex :
    lookupKey (mergeIntermediates (fun p => p == "a.zip".toList)
        [("d".toList, none)] [[("d".toList, "plain".toList)]]) "d".toList
      = some (some "plain".toList) ∧
    lookupKey (mergeIntermediates (fun p => p == "a.zip".toList)
        [("d".toList, none)]
        [[("d".toList, "plain".toList)], [("d".toList, "a.zip".toList)]]) "d".toList
      = some (some "a.zip".toList) ∧
    (fun p => p == "a.zip".toList) "plain".toList = false ∧
    (fun p => p == "a.zip".toList) "a.zip".toList = true :=
  ⟨by decide, by decide, by decide, by decide⟩

/-- C1 (amended): in the index_files merge a later-merged value always
overwrites the current value of a seeded digest (lines 931-934 guard a dead
assignment; line 937 assigns unconditionally), while in the raw-bytes step of
process_file an existing mapping whose path is not a ZIP file is never
overwritten (the guard on line 1015). -/
theorem merge_last_wins_rawstep_preserves_nonzip
    (z : PyStr → Bool) (r : Index) (k : PyStr) (v : Option PyStr)
    (result : List (PyStr × PyStr)) (rawDigest path d p : PyStr)
    (hmem : (lookupKey r k).isSome = true)
    (hd : lookupKey result d = some p) (hz : z p = false) :
    lookupKey (mergeValue z r k v) k = some v ∧
    lookupKey (rawStep z result rawDigest path) d = some p := by
  constructor
  · rw [lookupKey_mergeValue, if_pos ⟨rfl, hmem⟩]
  · unfold rawStep
    cases hr : lookupKey result rawDigest with
    | none =>
      rw [lookupKey_dictSet]
      by_cases hdk : d = rawDigest
      · rw [hdk] at hd
        rw [hd] at hr
        cases hr
      · rw [if_neg hdk]
        exact hd
    | some q =>
      show lookupKey (if z q = true then dictSet result rawDigest path else result) d
        = some p
      by_cases hdq : d = rawDigest
      · have hq : q = p := by
          rw [hdq] at hd
          rw [hd] at hr
          exact (Option.some.inj hr).symm
        rw [hq, hz]
        simp only [Bool.false_eq_true, if_false]
        exact hd
      · cases hzq : z q
        · simp only [Bool.false_eq_true, if_false]
          exact hd
        · simp only [if_true]
          rw [lookupKey_dictSet, if_neg hdq]
          exact hd

/-- C1 (witness): the amended statement at concrete inputs. -/
theorem merge_last_wins_rawstep_preserves_nonzip_witness :
    lookupKey (mergeValue (fun p => p == "a.zip".toList) [("d".toList, none)]
        "d".toList (some "a.zip".toList)) "d".toList = some (some "a.zip".toList) ∧
    lookupKey (rawStep (fun p => p == "a.zip".toList) [("e".toList, "plain".toList)]
        "e".toList "a.zip".toList) "e".toList = some "plain".toList :=
  merge_last_wins_rawstep_preserves_nonzip (fun p => p == "a.zip".toList)
    [("d".toList, none)] "d".toList (some "a.zip".toList)
    [("e".toList, "plain".toList)] "e".toList "a.zip".toList "e".toList "plain".toList
    (by decide) (by decide) (by decide)

/-! Claim C2. -/

/-- C2 (counterexample): merging the partial digest maps in a different order
changes the final map, so the merge is not commutative.  With the seeded index
mapping digest d to None and two per-file dictionaries locating d at two
different plain paths, the order of merging decides which path wins. -/
theorem merge_order_dependent_cex :
    lookupKey (mergeIntermediates (fun _ => false) [("d".toList, none)]
        [[("d".toList, "p1".toList)], [("d".toList, "p2".toList)]]) "d".toList
      = some (some "p2".toList) ∧
    lookupKey (mergeIntermediates (fun _ => false) [("d".toList, none)]
        [[("d".toList, "p2".toList)], [("d".toList, "p1".toList)]]) "d".toList
      = some (some "p1".toList) ∧
    ("p1".toList : PyStr) ≠ "p2".toList :=
  ⟨by decide, by decide, by decide⟩

/-- C2 (amended): the merge of index_files is idempotent as a map (re-merging
the same list of partial dictionaries changes no binding) and deterministic
for a fixed merge order, but it is not commutative: the merge is last-wins, so
when two partial maps bind the same seeded digest to different paths the final
index depends on the merge order. -/
theorem merge_idempotent (z : PyStr → Bool) (r : Index)
    (inters : List (List (PyStr × PyStr))) (k : PyStr) :
    lookupKey (mergeIntermediates z (mergeIntermediates z r inters) inters) k =
      lookupKey (mergeIntermediates z r inters) k := by
  rw [lookupKey_mergeIntermediates, lookupKey_mergeIntermediates]
  cases h : lookupKey r k with
  | none => rfl
  | some v =>
    show some (finalAssigned k inters (finalAssigned k inters v))
      = some (finalAssigned k inters v)
    rw [finalAssigned_idem]

/-! Claim C3. -/

theorem copied_fold_nonempty (hi : PyStr → Option PyStr) (roms : List DatRom)
    (acc : List PyStr) :
    ((roms.foldl (fun copied r =>
        match hi (pyLower r.sha1) with
        | some p => if copied.contains p then copied else copied ++ [p]
        | none => copied) acc).isEmpty = false)
      ↔ (acc.isEmpty = false ∨ ∃ r ∈ roms, (hi (pyLower r.sha1)).isSome = true) := by
  induction roms generalizing acc with
  | nil => simp
  | cons rom rest ih =>
    rw [List.foldl_cons]
    cases hh : hi (pyLower rom.sha1) with
    | none =>
      rw [ih]
      simp [hh]
    | some p =>
      have hne : ((if acc.contains p then acc else acc ++ [p]).isEmpty = false) := by
        by_cases hc : acc.contains p = true
        · rw [if_pos hc]
          cases acc with
          | nil => simp at hc
          | cons x xs => rfl
        · rw [if_neg hc]
          cases acc <;> rfl
      rw [ih]
      constructor
      · intro _
        exact Or.inr ⟨rom, by simp, by rw [hh]; rfl⟩
      · intro _
        exact Or.inl hne

theorem copied_paths_nonempty (hi : PyStr → Option PyStr) (roms : List DatRom) :
    ((copied_paths hi roms).isEmpty = false)
      ↔ ∃ r ∈ roms, (hi (pyLower r.sha1)).isSome = true := by
  unfold copied_paths
  rw [copied_fold_nonempty]
  simp

/-- C3 (counterexample): the claim that the resolver treats a candidate as
satisfied exactly when every ROM reference resolves, and otherwise falls
through to the next candidate, is false.  With an index locating only the
first of the first candidate's two ROM digests, the resolver stops at that
candidate even though its second ROM reference resolves to nothing, and never
reaches the next-ranked candidate, all of whose references resolve. -/
theorem resolver_stops_on_partial_candidate_cex :
    resolveBucket
        (fun d => if d = "aa".toList then some "p1".toList
                  else if d = "cc".toList then some "p3".toList else none)
        (fun _ => false)
        [⟨false, false, "USA".toList, [], 0, "0".toList, "0".toList, "Z".toList,
          "Z".toList, "Z".toList, "Z".toList, true, "G1".toList,
          [⟨"r1".toList, 1, "AA".toList⟩, ⟨"r2".toList, 2, "bb".toList⟩]⟩,
         ⟨false, false, "EUR".toList, [], 1, "0".toList, "0".toList, "Z".toList,
          "Z".toList, "Z".toList, "Z".toList, false, "G2".toList,
          [⟨"r3".toList, 3, "cc".toList⟩]⟩]
      = some ⟨false, false, "USA".toList, [], 0, "0".toList, "0".toList, "Z".toList,
          "Z".toList, "Z".toList, "Z".toList, true, "G1".toList,
          [⟨"r1".toList, 1, "AA".toList⟩, ⟨"r2".toList, 2, "bb".toList⟩]⟩ ∧
    ([(⟨"r1".toList, 1, "AA".toList⟩ : DatRom), ⟨"r2".toList, 2, "bb".toList⟩].all
        (fun r => ((fun d => if d = "aa".toList then some "p1".toList
                   else if d = "cc".toList then some "p3".toList else none)
          (pyLower r.sha1)).isSome)) = false ∧
    ([(⟨"r3".toList, 3, "cc".toList⟩ : DatRom)].all
        (fun r => ((fun d => if d = "aa".toList then some "p1".toList
                   else if d = "cc".toList then some "p3".toList else none)
          (pyLower r.sha1)).isSome)) = true :=
  ⟨by decide, by decide, by decide⟩

/-- C3 (amended): in hash mode the resolver stops at a candidate exactly when
at least one of its ROM references resolves to a located source path (the loop
breaks when copied_files is non-empty); it advances past a candidate, toward
lower-ranked ones, only when none of that candidate's references resolve and
no exclude-after pattern matched. -/
theorem resolveBucket_first_any_located (hi : PyStr → Option PyStr)
    (ex : PyStr → Bool) (entries : List GameEntry) (e : GameEntry) :
    resolveBucket hi ex entries = some e ↔
      ∃ pre post, entries = pre ++ e :: post ∧
        (∀ x ∈ pre, ex x.name = false ∧
          ¬∃ r ∈ x.rom, (hi (pyLower r.sha1)).isSome = true) ∧
        ex e.name = false ∧
        (∃ r ∈ e.rom, (hi (pyLower r.sha1)).isSome = true) := by
  induction entries with
  | nil =>
    simp [resolveBucket]
  | cons a rest ih =>
    by_cases hex : ex a.name = true
    · have hres : resolveBucket hi ex (a :: rest) = none := by
        unfold resolveBucket
        rw [hex]
        simp
      rw [hres]
      constructor
      · intro hh; cases hh
      · rintro ⟨pre, post, heq, hpre, hexe, hloc⟩
        cases pre with
        | nil =>
          have h1 : a = e := by
            have := congrArg (fun l => l.head?) heq
            simpa using this
          rw [← h1] at hexe
          rw [hexe] at hex
          cases hex
        | cons b pre2 =>
          have h1 : a = b := by
            have := congrArg (fun l => l.head?) heq
            simpa using this
          have hb := (hpre b (by simp)).1
          rw [← h1] at hb
          rw [hb] at hex
          cases hex
    · have hex' : ex a.name = false := by
        cases hb : ex a.name
        · rfl
        · exact absurd hb hex
      by_cases hfound : (copied_paths hi a.rom).isEmpty = false
      · have hres : resolveBucket hi ex (a :: rest) = some a := by
          unfold resolveBucket
          rw [hex']
          simp [hfound]
        rw [hres]
        have hloca := (copied_paths_nonempty hi a.rom).mp hfound
        constructor
        · intro hh
          have ha : a = e := Option.some.inj hh
          subst ha
          exact ⟨[], rest, by simp, by simp, hex', hloca⟩
        · rintro ⟨pre, post, heq, hpre, hexe, hloc⟩
          cases pre with
          | nil =>
            have h1 : a = e := by
              have := congrArg (fun l => l.head?) heq
              simpa using this
            rw [h1]
          | cons b pre2 =>
            have h1 : a = b := by
              have := congrArg (fun l => l.head?) heq
              simpa using this
            have hb := (hpre b (by simp)).2
            rw [← h1] at hb
            exact absurd hloca hb
      · have hfound' : (copied_paths hi a.rom).isEmpty = true := by
          cases hb : (copied_paths hi a.rom).isEmpty
          · exact absurd hb hfound
          · rfl
        have hnoloc : ¬∃ r ∈ a.rom, (hi (pyLower r.sha1)).isSome = true := by
          intro hh
          have := (copied_paths_nonempty hi a.rom).mpr hh
          rw [hfound'] at this
          cases this
        have hres : resolveBucket hi ex (a :: rest) = resolveBucket hi ex rest := by
          unfold resolveBucket
          rw [hex']
          simp only [hfound', Bool.not_true, Bool.false_eq_true, if_false]
          cases rest with
          | nil => rfl
          | cons b rs => rfl
        rw [hres, ih]
        constructor
        · rintro ⟨pre, post, heq, hpre, hexe, hloc⟩
          refine ⟨a :: pre, post, by rw [heq]; rfl, ?_, hexe, hloc⟩
          intro x hx
          rcases List.mem_cons.mp hx with hx | hx
          · rw [hx]
            exact ⟨hex', hnoloc⟩
          · exact hpre x hx
        · rintro ⟨pre, post, heq, hpre, hexe, hloc⟩
          cases pre with
          | nil =>
            have h1 : a = e := by
              have := congrArg (fun l => l.head?) heq
              simpa using this
            rw [h1] at hnoloc
            exact absurd hloc hnoloc
          | cons b pre2 =>
            have h2 : rest = pre2 ++ e :: post := by
              have := congrArg List.tail heq
              simpa using this
            exact ⟨pre2, post, h2, fun x hx => hpre x (by simp [hx]), hexe, hloc⟩

/-! Claim C4. -/

/-- C4 (counterexample): when a prerelease family tag is present but captures
no sub-tag, the GameVariant field is the sentinel Z, not the string 0: on the
name Game (Beta) the Beta pattern matches with nothing captured in group 1,
and parse_prerelease falls back to NOT_PRERELEASE. -/
theorem parse_prerelease_no_subtag_cex :
    beta_regex_search "Game (Beta)".toList = some none ∧
    parse_prerelease (beta_regex_search "Game (Beta)".toList) = "Z".toList ∧
    ("Z".toList : PyStr) ≠ "0".toList :=
  ⟨by decide, by decide, by decide⟩

/-- C4 (amended): the prerelease field is the sentinel Z both when the
family's tag is absent from the name and when the tag is present but no
sub-tag is captured (the default of parse_prerelease is NOT_PRERELEASE, never
0); when group 1 captures a non-empty sub-tag the field equals it.
Illustrated on the Beta family: (Beta) gives Z, (Beta 3) gives 3, and a name
without a Beta tag gives Z. -/
theorem parse_prerelease_sentinel (v : PyStr) (hv : v ≠ []) :
    parse_prerelease none = "Z".toList ∧
    parse_prerelease (some none) = "Z".toList ∧
    parse_prerelease (some (some v)) = v ∧
    beta_regex_search "Game (Beta)".toList = some none ∧
    parse_prerelease (beta_regex_search "Game (Beta)".toList) = "Z".toList ∧
    beta_regex_search "Game (Beta 3)".toList = some (some "3".toList) ∧
    parse_prerelease (beta_regex_search "Game (Beta 3)".toList) = "3".toList ∧
    beta_regex_search "Game (USA)".toList = none ∧
    parse_prerelease (beta_regex_search "Game (USA)".toList) = "Z".toList := by
  have hvE : v.isEmpty = false := by
    cases v with
    | nil => exact absurd rfl hv
    | cons c cs => rfl
  refine ⟨by decide, by decide, ?_, by decide, by decide, by decide, by decide,
    by decide, by decide⟩
  show (if v.isEmpty then NOT_PRERELEASE else v) = v
  rw [hvE]
  simp

/-- C4 (witness): the amended statement at the concrete sub-tag 3. -/
theorem parse_prerelease_sentinel_witness :
    parse_prerelease none = "Z".toList ∧
    parse_prerelease (some none) = "Z".toList ∧
    parse_prerelease (some (some "3".toList)) = "3".toList ∧
    beta_regex_search "Game (Beta)".toList = some none ∧
    parse_prerelease (beta_regex_search "Game (Beta)".toList) = "Z".toList ∧
    beta_regex_search "Game (Beta 3)".toList = some (some "3".toList) ∧
    parse_prerelease (beta_regex_search "Game (Beta 3)".toList) = "3".toList ∧
    beta_regex_search "Game (USA)".toList = none ∧
    parse_prerelease (beta_regex_search "Game (USA)".toList) = "Z".toList :=
  parse_prerelease_sentinel "3".toList (by decide)

/-! Claim C6. -/

/-- C6 (counterexample): declining the integrity gate aborts the run with exit
status 0, not a non-zero status, because sys.exit() is called with no
argument.  The concrete DAT has no clone relationship, hashing is requested,
force is off, and the user answers n at the prompt. -/
theorem validate_dat_decline_exit_zero_cex :
    validate_dat [⟨"Game A".toList, none, [], [⟨"a.bin".toList, 1, "abc".toList⟩]⟩]
        true false "n".toList "n".toList = Outcome.aborted 0 ∧
    (∀ c : Nat,
      validate_dat [⟨"Game A".toList, none, [], [⟨"a.bin".toList, 1, "abc".toList⟩]⟩]
          true false "n".toList "n".toList = Outcome.aborted c → c = 0) := by
  have h : validate_dat [⟨"Game A".toList, none, [], [⟨"a.bin".toList, 1,
      "abc".toList⟩]⟩] true false "n".toList "n".toList = Outcome.aborted 0 := by
    decide
  refine ⟨h, ?_⟩
  intro c hc
  rw [h] at hc
  exact (Outcome.aborted.inj hc).symm

/-- C6 (amended): when the integrity gate of validate_dat fires (ROM entries
missing a SHA-1 digest while hashing is requested, or no clone relationships
present) and no force option is set, declining the prompt aborts the run, but
through sys.exit() with no argument, i.e. with exit status 0 rather than a
non-zero status. -/
theorem validate_dat_decline_aborts (games : List DatGame) (use_hashes : Bool)
    (a1 a2 : PyStr)
    (h1 : answered_yes a1 = false) (h2 : answered_yes a2 = false)
    (hgate : (use_hashes = true ∧ lacks_sha1_final games false = true) ∨
      games.any (fun g => optTruthy g.cloneof) = false) :
    validate_dat games use_hashes false a1 a2 = Outcome.aborted 0 := by
  unfold validate_dat
  rcases hgate with ⟨hu, hl⟩ | hcl
  · rw [hu, hl, h1]
    simp
  · by_cases hfirst : (use_hashes && lacks_sha1_final games false &&
        !(answered_yes a1)) = true
    · rw [if_pos hfirst]
    · rw [if_neg hfirst]
      rw [hcl, h2]
      simp

/-- C6 (witness): the amended statement on a DAT with no clone relationship
and a declined prompt. -/
theorem validate_dat_decline_aborts_witness :
    validate_dat [⟨"Game B".toList, none, [], [⟨"b.bin".toList, 2, "dd".toList⟩]⟩]
        false false "no".toList "no".toList = Outcome.aborted 0 :=
  validate_dat_decline_aborts
    [⟨"Game B".toList, none, [], [⟨"b.bin".toList, 2, "dd".toList⟩]⟩]
    false "no".toList "no".toList (by decide) (by decide) (Or.inr (by decide))

/-! Claim C7. -/

theorem filterMap_valid_id (M : List PyStr)
    (h : ∀ x ∈ M, is_valid x = true ∧ pyStrip x = x ∧ pyLower x = x) :
    (M.filterMap (fun x => if is_valid x then some (pyLower (pyStrip x)) else none))
      = M := by
  induction M with
  | nil => rfl
  | cons a as ih =>
    have ha := h a (by simp)
    have hfa : (if is_valid a then some (pyLower (pyStrip a)) else none) = some a := by
      rw [ha.1]
      simp only [if_true]
      rw [ha.2.1, ha.2.2]
    rw [List.filterMap_cons, hfa]
    rw [ih (fun x hx => h x (by simp [hx]))]

theorem idxOfAux_get (L : List PyStr) (i n : Nat) (hi : i < L.length)
    (hnd : L.Nodup) :
    idxOfAux (L[i]) L n = some (n + i) := by
  induction L generalizing i n with
  | nil => cases hi
  | cons a as ih =>
    cases i with
    | zero =>
      show idxOfAux a (a :: as) n = some (n + 0)
      unfold idxOfAux
      rw [if_pos rfl]
      simp
    | succ j =>
      have hj : j < as.length := Nat.lt_of_succ_lt_succ hi
      have hmem : as[j] ∈ as := List.getElem_mem hj
      have hne : ¬(a = as[j]) := by
        intro hh
        exact (List.nodup_cons.mp hnd).1 (hh ▸ hmem)
      show idxOfAux (as[j]) (a :: as) n = some (n + (j + 1))
      unfold idxOfAux
      rw [if_neg hne, ih j (n + 1) hj (List.nodup_cons.mp hnd).2]
      congr 1
      omega

theorem get_index_reverse (L : List PyStr) (i : Nat) (hi : i < L.length)
    (hnd : L.Nodup) :
    get_index L.reverse (L[i]) (-1) = ((L.length - 1 - i : Nat) : Int) := by
  have hk : L.length - 1 - i < L.reverse.length := by
    simp
    omega
  have hrev : L.reverse.get ⟨L.length - 1 - i, hk⟩ = L[i] := by
    show L.reverse[L.length - 1 - i] = L[i]
    rw [List.getElem_reverse]
    congr 1
    omega
  have hidx : idxOfAux (L[i]) L.reverse 0 = some (0 + (L.length - 1 - i)) := by
    rw [← hrev]
    exact idxOfAux_get L.reverse (L.length - 1 - i) 0 hk (List.nodup_reverse.mpr hnd)
  unfold get_index
  rw [hidx]
  simp

/-- C7: the language score assigned by set_scores equals the sum, over the
variant's languages, of -(position in the selected-languages list, or -1 if
absent, plus 1) times the language weight, where selected_languages is the
reversed, normalized --languages argument; and among the languages the user
listed, an earlier-listed (more preferred) language contributes a strictly
more negative term than a later-listed one, because the reversal puts it at a
larger index. -/
theorem language_rank_formula_and_dominance
    (pieces : List PyStr) (w : Int) (g : GameEntry)
    (selected_regions : List PyStr) (ra va : Bool)
    (hw : 0 < w) (hnd : pieces.Nodup)
    (hclean : ∀ x ∈ pieces, is_valid x = true ∧ pyStrip x = x ∧ pyLower x = x) :
    (set_scores g selected_regions (parse_selected_languages pieces) w ra va).languages
      = (g.languages.map (fun lang =>
          (get_index (parse_selected_languages pieces) lang (-1) + 1) * w * (-1))).sum ∧
    ∀ i j, (hi : i < pieces.length) → (hj : j < pieces.length) → i < j →
      (get_index (parse_selected_languages pieces) (pieces[i]) (-1) + 1) * w * (-1) <
      (get_index (parse_selected_languages pieces) (pieces[j]) (-1) + 1) * w * (-1) := by
  have hsel : parse_selected_languages pieces = pieces.reverse := by
    unfold parse_selected_languages
    exact filterMap_valid_id pieces.reverse (fun x hx => hclean x (List.mem_reverse.mp hx))
  constructor
  · show (g.languages.map (fun lang =>
        (get_index (parse_selected_languages pieces) lang (-1) + 1) * (-w))).sum = _
    apply congrArg List.sum
    apply List.map_congr_left
    intro lang _
    ring
  · intro i j hi hj hij
    rw [hsel, get_index_reverse pieces i hi hnd, get_index_reverse pieces j hj hnd]
    have hA : pieces.length - 1 - j < pieces.length - 1 - i := by omega
    have hcast : ((pieces.length - 1 - j : Nat) : Int) <
        ((pieces.length - 1 - i : Nat) : Int) := by exact_mod_cast hA
    nlinarith [hcast, hw]

/-- C7 (witness): the formula and the dominance of the earlier-listed language
at the concrete selection en before fr with weight 3. -/
theorem language_rank_formula_and_dominance_witness :
    (set_scores ⟨false, false, "USA".toList, ["en".toList], 0, "0".toList, "0".toList,
        "Z".toList, "Z".toList, "Z".toList, "Z".toList, true, "G".toList, []⟩
        [] (parse_selected_languages ["en".toList, "fr".toList]) 3 false false).languages
      = ((["en".toList] : List PyStr).map (fun lang =>
          (get_index (parse_selected_languages ["en".toList, "fr".toList]) lang (-1) + 1)
            * 3 * (-1))).sum ∧
    (get_index (parse_selected_languages ["en".toList, "fr".toList]) "en".toList (-1) + 1)
        * 3 * (-1) <
    (get_index (parse_selected_languages ["en".toList, "fr".toList]) "fr".toList (-1) + 1)
        * 3 * (-1) :=
  ⟨(language_rank_formula_and_dominance ["en".toList, "fr".toList] 3
      ⟨false, false, "USA".toList, ["en".toList], 0, "0".toList, "0".toList,
        "Z".toList, "Z".toList, "Z".toList, "Z".toList, true, "G".toList, []⟩
      [] false false (by decide) (by decide) (by decide)).1,
   (language_rank_formula_and_dominance ["en".toList, "fr".toList] 3
      ⟨false, false, "USA".toList, ["en".toList], 0, "0".toList, "0".toList,
        "Z".toList, "Z".toList, "Z".toList, "Z".toList, true, "G".toList, []⟩
      [] false false (by decide) (by decide) (by decide)).2 0 1
      (by decide) (by decide) (by decide)⟩

/-! Claim C8. -/

/-- C8: region detection is case-insensitive and whole-token.  Two tokens
equal up to lowercasing match exactly the same region rows; a row belongs to
parse_region_data's result exactly when it is a table row whose pattern fully
matches (ignoring case) some trimmed comma-separated token of some top-level
parenthesized section; and concretely (Germany) and (GERMANY) both yield
exactly the GER RegionData while (Germany-ish) yields no match. -/
theorem parse_region_data_case_insensitive_whole_token
    (t1 t2 : PyStr) (h : pyLower t1 = pyLower t2) :
    (∀ rd : RegionData, regionMatches rd t1 = regionMatches rd t2) ∧
    (∀ (name : PyStr) (rd : RegionData),
      rd ∈ parse_region_data name ↔
        (rd ∈ COUNTRY_REGION_CORRELATION ∧
          ∃ sec ∈ sections name, ∃ tok ∈ (splitOn ',' sec).map pyStrip,
            regionMatches rd tok = true)) ∧
    parse_region_data "(Germany)".toList
      = [⟨"GER".toList, some "Germany".toList, ["de".toList]⟩] ∧
    parse_region_data "(GERMANY)".toList
      = [⟨"GER".toList, some "Germany".toList, ["de".toList]⟩] ∧
    parse_region_data "(Germany-ish)".toList = [] := by
  refine ⟨?_, ?_, by decide, by decide, by decide⟩
  · intro rd
    unfold regionMatches
    cases rd.pattern with
    | none => rfl
    | some pat =>
      unfold fullmatchIgnoreCase
      rw [h]
  · intro name rd
    simp only [parse_region_data, List.mem_flatMap, List.mem_filter, List.mem_map]
    constructor
    · rintro ⟨sec, hsec, tok, htok, hmem, hmatch⟩
      exact ⟨hmem, sec, hsec, tok, htok, hmatch⟩
    · rintro ⟨hmem, sec, hsec, tok, htok, hmatch⟩
      exact ⟨sec, hsec, tok, htok, hmem, hmatch⟩

/-- C8 (witness): the case-insensitivity conjunct at the concrete token pair
Germany and GERMANY, on the GER table row. -/
theorem parse_region_data_case_insensitive_whole_token_witness :
    regionMatches ⟨"GER".toList, some "Germany".toList, ["de".toList]⟩ "Germany".toList
      = regionMatches ⟨"GER".toList, some "Germany".toList, ["de".toList]⟩
          "GERMANY".toList :=
  (parse_region_data_case_insensitive_whole_token "Germany".toList "GERMANY".toList
    (by decide)).1 ⟨"GER".toList, some "Germany".toList, ["de".toList]⟩

/-! Claim C9. -/

theorem lookupKey_isSome_dictSet {β : Type} (r : List (PyStr × β)) (k k' : PyStr)
    (v : β) (h : (lookupKey r k).isSome = true) :
    (lookupKey (dictSet r k' v) k).isSome = true := by
  rw [lookupKey_dictSet]
  by_cases hk : k = k'
  · rw [if_pos hk]
    rfl
  · rw [if_neg hk]
    exact h

theorem romsFold_isSome_mono (roms : List DatRom) (r : Index) (k : PyStr)
    (h : (lookupKey r k).isSome = true) :
    (lookupKey (roms.foldl (fun r rom_entry =>
      dictSet r (pyLower rom_entry.sha1) none) r) k).isSome = true := by
  induction roms generalizing r with
  | nil => exact h
  | cons a as ih =>
    rw [List.foldl_cons]
    exact ih _ (lookupKey_isSome_dictSet r k (pyLower a.sha1) none h)

theorem romsFold_isSome (roms : List DatRom) (r : Index) (rom : DatRom)
    (hmem : rom ∈ roms) :
    (lookupKey (roms.foldl (fun r rom_entry =>
      dictSet r (pyLower rom_entry.sha1) none) r) (pyLower rom.sha1)).isSome = true := by
  induction roms generalizing r with
  | nil => cases hmem
  | cons a as ih =>
    rw [List.foldl_cons]
    rcases List.mem_cons.mp hmem with hh | hh
    · subst hh
      apply romsFold_isSome_mono
      rw [lookupKey_dictSet, if_pos rfl]
      rfl
    · exact ih _ hh

theorem gamesFold_isSome_mono (gs : List DatGame) (r : Index) (k : PyStr)
    (h : (lookupKey r k).isSome = true) :
    (lookupKey (gs.foldl (fun r g =>
      g.rom.foldl (fun r rom_entry => dictSet r (pyLower rom_entry.sha1) none) r) r)
      k).isSome = true := by
  induction gs generalizing r with
  | nil => exact h
  | cons a as ih =>
    rw [List.foldl_cons]
    exact ih _ (romsFold_isSome_mono a.rom r k h)

theorem gamesFold_isSome (gs : List DatGame) (r : Index) (g : DatGame) (rom : DatRom)
    (hg : g ∈ gs) (hr : rom ∈ g.rom) :
    (lookupKey (gs.foldl (fun r g =>
      g.rom.foldl (fun r rom_entry => dictSet r (pyLower rom_entry.sha1) none) r) r)
      (pyLower rom.sha1)).isSome = true := by
  induction gs generalizing r with
  | nil => cases hg
  | cons a as ih =>
    rw [List.foldl_cons]
    rcases List.mem_cons.mp hg with hh | hh
    · subst hh
      exact gamesFold_isSome_mono as _ _ (romsFold_isSome g.rom r rom hr)
    · exact ih _ hh

theorem seedIndex_isSome (games : List DatGame) (g : DatGame) (rom : DatRom)
    (hg : g ∈ games) (hr : rom ∈ g.rom) :
    (lookupKey (seedIndex games) (pyLower rom.sha1)).isSome = true := by
  unfold seedIndex
  exact gamesFold_isSome games [] g rom hg hr

theorem parse_games_rom_src (m : NameMatchers) (f : Filters) (exclude : PyStr → Bool)
    (games : List DatGame) (pe : PyStr × GameEntry)
    (hpe : pe ∈ parse_games m f exclude games) :
    ∃ g ∈ games, pe.2.rom = g.rom := by
  unfold parse_games at hpe
  rw [List.mem_flatMap] at hpe
  obtain ⟨p, hp, hpe⟩ := hpe
  by_cases hskip : skipsGame m f exclude p.2 = true
  · rw [if_pos hskip] at hpe
    cases hpe
  · rw [if_neg hskip] at hpe
    have hgm : p.2 ∈ games := by
      have hmap : p.2 ∈ games.enum.map Prod.snd := List.mem_map_of_mem Prod.snd hp
      rw [List.enum_map_snd] at hmap
      exact hmap
    refine ⟨p.2, hgm, ?_⟩
    simp only [gameEntriesOf] at hpe
    rw [List.mem_map] at hpe
    obtain ⟨region, hreg, hpe⟩ := hpe
    rw [← hpe]

/-- C9: the digest index is seeded from the same DAT before scanning, and
parse_games only filters games out, so for every ROM reference of every parsed
game the lowercased digest is a key of the final index (possibly mapped to no
path): the direct subscript lookup of the resolver in hash mode never misses a
key. -/
theorem hash_index_contains_all_parsed_digests
    (m : NameMatchers) (f : Filters) (exclude : PyStr → Bool)
    (z : PyStr → Bool) (games : List DatGame)
    (intermediate_results : List (List (PyStr × PyStr)))
    (hsha : ∀ g ∈ games, ∀ r ∈ g.rom, r.sha1 ≠ []) :
    ∀ pe ∈ parse_games m f exclude games, ∀ rom ∈ pe.2.rom,
      lookupKey (index_files z games intermediate_results) (pyLower rom.sha1)
        ≠ none := by
  intro pe hpe rom hrom
  obtain ⟨g, hg, hroms⟩ := parse_games_rom_src m f exclude games pe hpe
  rw [hroms] at hrom
  have hseed := seedIndex_isSome games g rom hg hrom
  unfold index_files
  rw [lookupKey_mergeIntermediates]
  obtain ⟨v, hv⟩ := Option.isSome_iff_exists.mp hseed
  rw [hv]
  simp

/-- C9 (witness): the digest of the only ROM of a one-game DAT is a key of the
index built with no scanner results. -/
theorem hash_index_contains_all_parsed_digests_witness :
    lookupKey (index_files (fun _ => false)
        [⟨"Game (USA)".toList, none, [], [⟨"r".toList, 1, "AB".toList⟩]⟩] [])
      (pyLower "AB".toList) ≠ none :=
  hash_index_contains_all_parsed_digests
    ⟨(fun _ => false), (fun _ => false), (fun _ => false), (fun _ => false),
      (fun _ => false), (fun _ => false), (fun _ => false), (fun _ => false),
      (fun _ => false), (fun _ => false), (fun _ => false), (fun _ => none),
      (fun _ => none), (fun _ => none), (fun _ => none), (fun _ => none),
      (fun _ => none), (fun _ => [])⟩
    ⟨false, false, false, false, false, false, false, false, false, false, false,
      false, false, false, false, false⟩
    (fun _ => false) (fun _ => false)
    [⟨"Game (USA)".toList, none, [], [⟨"r".toList, 1, "AB".toList⟩]⟩] []
    (by decide)
    ("Game (USA)".toList,
      ⟨false, false, "USA".toList, ["en".toList], 0, "0".toList, "0".toList,
        "Z".toList, "Z".toList, "Z".toList, "Z".toList, true, "Game (USA)".toList,
        [⟨"r".toList, 1, "AB".toList⟩]⟩)
    (by decide) ⟨"r".toList, 1, "AB".toList⟩ (by decide)

/-! Lemmas for claims C5 and C10: maxima, padding and decimal values. -/

theorem foldl_max_init (l : List Nat) (a : Nat) : a ≤ l.foldl Nat.max a := by
  induction l generalizing a with
  | nil => exact Nat.le_refl a
  | cons x xs ih =>
    rw [List.foldl_cons]
    exact Nat.le_trans (Nat.le_max_left a x) (ih (Nat.max a x))

theorem foldl_max_mem (l : List Nat) (a x : Nat) (hx : x ∈ l) :
    x ≤ l.foldl Nat.max a := by
  induction l generalizing a with
  | nil => cases hx
  | cons y ys ih =>
    rw [List.foldl_cons]
    rcases List.mem_cons.mp hx with hh | hh
    · subst hh
      exact Nat.le_trans (Nat.le_max_right a x) (foldl_max_init ys (Nat.max a x))
    · exact ih (Nat.max a y) hh

theorem maxNat_ge (l : List Nat) (x : Nat) (hx : x ∈ l) : x ≤ maxNat l :=
  foldl_max_mem l 0 x hx

theorem foldl_max_le (l : List Nat) (a m : Nat) (ha : a ≤ m)
    (h : ∀ x ∈ l, x ≤ m) : l.foldl Nat.max a ≤ m := by
  induction l generalizing a with
  | nil => exact ha
  | cons x xs ih =>
    rw [List.foldl_cons]
    exact ih (Nat.max a x) (Nat.max_le.mpr ⟨ha, h x (by simp)⟩)
      (fun y hy => h y (by simp [hy]))

theorem maxNat_le (l : List Nat) (m : Nat) (h : ∀ x ∈ l, x ≤ m) : maxNat l ≤ m :=
  foldl_max_le l 0 m (Nat.zero_le m) h

theorem foldl_max_eq_or_mem (l : List Nat) (a : Nat) :
    l.foldl Nat.max a = a ∨ l.foldl Nat.max a ∈ l := by
  induction l generalizing a with
  | nil => exact Or.inl rfl
  | cons x xs ih =>
    rw [List.foldl_cons]
    rcases ih (Nat.max a x) with hh | hh
    · have hm : Nat.max a x = a ∨ Nat.max a x = x := max_choice a x
      rcases hm with hm | hm
      · exact Or.inl (hh.trans hm)
      · exact Or.inr (by rw [hh, hm]; simp)
    · exact Or.inr (by simp [hh])

theorem maxNat_eq_zero_or_mem (l : List Nat) : maxNat l = 0 ∨ maxNat l ∈ l :=
  foldl_max_eq_or_mem l 0

theorem get_eq_getD (ls : List Nat) (i : Nat) : get ls i = ls.getD i 0 := by
  unfold get
  by_cases h : i < ls.length
  · rw [if_pos h]
  · rw [if_neg h]
    rw [List.getD_eq_default]
    omega

theorem get_oob (ls : List Nat) (i : Nat) (h : ls.length ≤ i) : get ls i = 0 := by
  unfold get
  rw [if_neg (by omega)]

theorem get_in_range (ls : List Nat) (i : Nat) (h : i < ls.length) :
    get ls i = ls[i] := by
  unfold get
  rw [if_pos h]
  exact List.getD_eq_getElem ls 0 h

theorem decVal_foldl_acc (s : PyStr) (a : Nat) :
    s.foldl (fun a c => 10 * a + (c.toNat - 48)) a = a * 10 ^ s.length + decVal s := by
  induction s generalizing a with
  | nil => simp [decVal]
  | cons c cs ih =>
    rw [List.foldl_cons, ih]
    have hd : decVal (c :: cs) = (c.toNat - 48) * 10 ^ cs.length + decVal cs := by
      show List.foldl (fun a c => 10 * a + (c.toNat - 48)) (10 * 0 + (c.toNat - 48)) cs
        = (c.toNat - 48) * 10 ^ cs.length + decVal cs
      rw [ih (10 * 0 + (c.toNat - 48))]
      ring
    rw [List.length_cons, hd]
    ring

theorem decVal_cons (c : Char) (cs : PyStr) :
    decVal (c :: cs) = (c.toNat - 48) * 10 ^ cs.length + decVal cs := by
  show List.foldl (fun a c => 10 * a + (c.toNat - 48)) (10 * 0 + (c.toNat - 48)) cs
    = (c.toNat - 48) * 10 ^ cs.length + decVal cs
  rw [decVal_foldl_acc]
  ring

theorem decVal_lt_pow (s : PyStr) (h : s.all isDigitCh = true) :
    decVal s < 10 ^ s.length := by
  induction s with
  | nil => simp [decVal]
  | cons c cs ih =>
    rw [List.all_cons, Bool.and_eq_true] at h
    have hc : c.toNat - 48 ≤ 9 := by
      have := h.1
      unfold isDigitCh at this
      rw [Bool.and_eq_true] at this
      have h1 : 48 ≤ c.toNat := by simpa using this.1
      have h2 : c.toNat ≤ 57 := by simpa using this.2
      omega
    have hval := ih h.2
    rw [decVal_cons, List.length_cons]
    calc (c.toNat - 48) * 10 ^ cs.length + decVal cs
        < (c.toNat - 48) * 10 ^ cs.length + 10 ^ cs.length := by omega
      _ ≤ 9 * 10 ^ cs.length + 10 ^ cs.length :=
          Nat.add_le_add_right (Nat.mul_le_mul_right _ hc) _
      _ = 10 ^ (cs.length + 1) := by ring

theorem replicate_zero_foldl (m : Nat) :
    (List.replicate m '0').foldl (fun a c => 10 * a + (c.toNat - 48)) 0 = 0 := by
  induction m with
  | zero => rfl
  | succ n ih =>
    rw [List.replicate_succ, List.foldl_cons]
    have : (10 * 0 + ('0'.toNat - 48)) = 0 := by decide
    rw [this]
    exact ih

theorem decVal_replicate_zero (m : Nat) (s : PyStr) :
    decVal (List.replicate m '0' ++ s) = decVal s := by
  unfold decVal
  rw [List.foldl_append, replicate_zero_foldl]

theorem decVal_padSeg (w : Nat) (p : PyStr) : decVal (padSeg w p) = decVal p :=
  decVal_replicate_zero (w - p.length) p

theorem charLt_toNat (a b : Char) : a < b ↔ a.toNat < b.toNat := Iff.rfl

theorem lexLt_irrefl (x : PyStr) : lexLt x x = false := by
  induction x with
  | nil => rfl
  | cons a as ih =>
    unfold lexLt
    rw [if_pos rfl]
    exact ih

theorem lexLt_double_false (x y : PyStr) (h1 : lexLt x y = false)
    (h2 : lexLt y x = false) : x = y := by
  induction x generalizing y with
  | nil =>
    cases y with
    | nil => rfl
    | cons b bs => cases h1
  | cons a as ih =>
    cases y with
    | nil => cases h2
    | cons b bs =>
      by_cases hab : a = b
      · subst hab
        unfold lexLt at h1 h2
        rw [if_pos rfl] at h1 h2
        rw [ih bs h1 h2]
      · unfold lexLt at h1 h2
        rw [if_neg hab] at h1
        rw [if_neg (fun hh => hab hh.symm)] at h2
        have hn1 : ¬(a < b) := by simpa using h1
        have hn2 : ¬(b < a) := by simpa using h2
        rcases lt_trichotomy a b with hh | hh | hh
        · exact absurd hh hn1
        · exact absurd hh hab
        · exact absurd hh hn2

theorem numLexLt_irrefl (x : List Nat) : numLexLt x x = false := by
  induction x with
  | nil => rfl
  | cons a as ih =>
    unfold numLexLt
    rw [if_pos rfl]
    exact ih

theorem numLexLt_double_false (x y : List Nat) (h1 : numLexLt x y = false)
    (h2 : numLexLt y x = false) : x = y := by
  induction x generalizing y with
  | nil =>
    cases y with
    | nil => rfl
    | cons b bs => cases h1
  | cons a as ih =>
    cases y with
    | nil => cases h2
    | cons b bs =>
      by_cases hab : a = b
      · subst hab
        unfold numLexLt at h1 h2
        rw [if_pos rfl] at h1 h2
        rw [ih bs h1 h2]
      · unfold numLexLt at h1 h2
        rw [if_neg hab] at h1
        rw [if_neg (fun hh => hab hh.symm)] at h2
        have hn1 : ¬(a < b) := by simpa using h1
        have hn2 : ¬(b < a) := by simpa using h2
        omega

theorem decVal_strict (a b : Char) (as bs : PyStr) (hlen : as.length = bs.length)
    (ha : (a :: as).all isDigitCh = true) (hb : (b :: bs).all isDigitCh = true)
    (hab : a < b) : decVal (a :: as) < decVal (b :: bs) := by
  rw [List.all_cons, Bool.and_eq_true] at ha hb
  have hda : 48 ≤ a.toNat ∧ a.toNat ≤ 57 := by
    have := ha.1
    unfold isDigitCh at this
    rw [Bool.and_eq_true] at this
    exact ⟨by simpa using this.1, by simpa using this.2⟩
  have hdb : 48 ≤ b.toNat ∧ b.toNat ≤ 57 := by
    have := hb.1
    unfold isDigitCh at this
    rw [Bool.and_eq_true] at this
    exact ⟨by simpa using this.1, by simpa using this.2⟩
  have hlt : a.toNat < b.toNat := (charLt_toNat a b).mp hab
  have hd : a.toNat - 48 + 1 ≤ b.toNat - 48 := by omega
  have hval := decVal_lt_pow as ha.2
  rw [decVal_cons, decVal_cons, ← hlen]
  calc (a.toNat - 48) * 10 ^ as.length + decVal as
      < (a.toNat - 48) * 10 ^ as.length + 10 ^ as.length := by omega
    _ = (a.toNat - 48 + 1) * 10 ^ as.length := by ring
    _ ≤ (b.toNat - 48) * 10 ^ as.length := Nat.mul_le_mul_right _ hd
    _ ≤ (b.toNat - 48) * 10 ^ as.length + decVal bs := Nat.le_add_right _ _

theorem lexLt_iff_decVal (x y : PyStr) (hlen : x.length = y.length)
    (hx : x.all isDigitCh = true) (hy : y.all isDigitCh = true) :
    lexLt x y = true ↔ decVal x < decVal y := by
  induction x generalizing y with
  | nil =>
    cases y with
    | nil => simp [lexLt, decVal]
    | cons b bs => cases hlen
  | cons a as ih =>
    cases y with
    | nil => cases hlen
    | cons b bs =>
      have hlen' : as.length = bs.length := by
        simpa using hlen
      by_cases hab : a = b
      · subst hab
        unfold lexLt
        rw [if_pos rfl]
        rw [List.all_cons, Bool.and_eq_true] at hx hy
        rw [ih bs hlen' hx.2 hy.2, decVal_cons, decVal_cons, ← hlen']
        omega
      · unfold lexLt
        rw [if_neg hab]
        constructor
        · intro hh
          have hab' : a < b := by simpa using hh
          exact decVal_strict a b as bs hlen' hx hy hab'
        · intro hv
          rcases lt_trichotomy a b with hh | hh | hh
          · simpa using hh
          · exact absurd hh hab
          · have := decVal_strict b a bs as hlen'.symm hy hx hh
            omega

theorem lexLt_cons_cons (a b : Char) (as bs : PyStr) :
    lexLt (a :: as) (b :: bs) = if a = b then lexLt as bs else decide (a < b) := rfl

theorem lexLt_append_left (x u v : PyStr) :
    lexLt (x ++ u) (x ++ v) = lexLt u v := by
  induction x with
  | nil => rfl
  | cons a as ih =>
    show lexLt (a :: (as ++ u)) (a :: (as ++ v)) = lexLt u v
    rw [lexLt_cons_cons, if_pos rfl]
    exact ih

theorem lexLt_append_ne (x y u v : PyStr) (hlen : x.length = y.length)
    (hne : x ≠ y) : lexLt (x ++ u) (y ++ v) = lexLt x y := by
  induction x generalizing y with
  | nil =>
    cases y with
    | nil => exact absurd rfl hne
    | cons b bs => cases hlen
  | cons a as ih =>
    cases y with
    | nil => cases hlen
    | cons b bs =>
      have hlen' : as.length = bs.length := by simpa using hlen
      by_cases hab : a = b
      · subst hab
        have hne' : as ≠ bs := fun hh => hne (by rw [hh])
        show lexLt (a :: (as ++ u)) (a :: (bs ++ v)) = lexLt (a :: as) (a :: bs)
        unfold lexLt
        rw [if_pos rfl, if_pos rfl]
        exact ih bs hlen' hne'
      · show lexLt (a :: (as ++ u)) (b :: (bs ++ v)) = lexLt (a :: as) (b :: bs)
        unfold lexLt
        rw [if_neg hab, if_neg hab]

theorem lexLt_self_append (x y : PyStr) : lexLt x (x ++ y) = !y.isEmpty := by
  induction x with
  | nil =>
    cases y with
    | nil => rfl
    | cons c cs => rfl
  | cons a as ih =>
    show lexLt (a :: as) (a :: (as ++ y)) = !y.isEmpty
    unfold lexLt
    rw [if_pos rfl]
    exact ih

theorem lexLt_append_self (x y : PyStr) : lexLt (x ++ y) x = false := by
  induction x with
  | nil =>
    cases y with
    | nil => rfl
    | cons c cs => rfl
  | cons a as ih =>
    show lexLt (a :: (as ++ y)) (a :: as) = false
    unfold lexLt
    rw [if_pos rfl]
    exact ih

theorem joinDots_cons (p : PyStr) (ps : List PyStr) :
    joinDots (p :: ps) = p ++ (if ps.isEmpty then [] else '.' :: joinDots ps) := by
  cases ps <;> rfl

theorem splitOn_ne_nil (sep : Char) (s : PyStr) : splitOn sep s ≠ [] := by
  cases s with
  | nil => simp [splitOn]
  | cons c cs =>
    unfold splitOn
    by_cases hc : (c == sep) = true
    · rw [if_pos hc]
      simp
    · rw [if_neg hc]
      cases h : splitOn sep cs <;> simp

theorem splitOn_sep_not_mem (sep : Char) (s : PyStr) :
    ∀ seg ∈ splitOn sep s, sep ∉ seg := by
  induction s with
  | nil =>
    intro seg hseg
    simp [splitOn] at hseg
    simp [hseg]
  | cons c cs ih =>
    intro seg hseg
    unfold splitOn at hseg
    by_cases hc : (c == sep) = true
    · rw [if_pos hc] at hseg
      rcases List.mem_cons.mp hseg with hh | hh
      · simp [hh]
      · exact ih seg hh
    · rw [if_neg hc] at hseg
      have hcs : c ≠ sep := by simpa using hc
      cases hsp : splitOn sep cs with
      | nil => exact absurd hsp (splitOn_ne_nil sep cs)
      | cons s0 ss =>
        rw [hsp] at hseg
        rcases List.mem_cons.mp hseg with hh | hh
        · subst hh
          intro hmem
          rcases List.mem_cons.mp hmem with hh2 | hh2
          · exact hcs hh2.symm
          · exact ih s0 (by rw [hsp]; simp) hh2
        · exact ih seg (by rw [hsp]; simp [hh])

theorem splitOn_no_sep (sep : Char) (s : PyStr) (h : sep ∉ s) :
    splitOn sep s = [s] := by
  induction s with
  | nil => rfl
  | cons c cs ih =>
    have hcs : ¬((c == sep) = true) := by
      simp only [beq_iff_eq]
      intro hh
      exact h (by rw [hh]; simp)
    unfold splitOn
    rw [if_neg hcs]
    rw [ih (fun hh => h (by simp [hh]))]

theorem splitOn_cons (sep c : Char) (cs : PyStr) :
    splitOn sep (c :: cs) =
      if c == sep then [] :: splitOn sep cs
      else
        match splitOn sep cs with
        | s :: ss => (c :: s) :: ss
        | [] => [[c]] := rfl

theorem splitOn_append_sep (sep : Char) (p t : PyStr) (hp : sep ∉ p) :
    splitOn sep (p ++ sep :: t) = p :: splitOn sep t := by
  induction p with
  | nil =>
    show splitOn sep (sep :: t) = [] :: splitOn sep t
    rw [splitOn_cons, if_pos (by simp)]
  | cons c cs ih =>
    have hcs : ¬((c == sep) = true) := by
      simp only [beq_iff_eq]
      intro hh
      exact hp (by rw [hh]; simp)
    show splitOn sep (c :: (cs ++ sep :: t)) = (c :: cs) :: splitOn sep t
    rw [splitOn_cons, if_neg hcs, ih (fun hh => hp (by simp [hh]))]

theorem splitOnDot_joinDots (u : List PyStr) (hu : u ≠ [])
    (hdot : ∀ p ∈ u, '.' ∉ p) : splitOnDot (joinDots u) = u := by
  induction u with
  | nil => exact absurd rfl hu
  | cons p ps ih =>
    cases ps with
    | nil =>
      have : joinDots [p] = p := by
        rw [joinDots_cons]
        simp
      rw [this]
      exact splitOn_no_sep '.' p (hdot p (by simp))
    | cons q qs =>
      have hj : joinDots (p :: q :: qs) = p ++ '.' :: joinDots (q :: qs) := by
        rw [joinDots_cons]
        simp
      rw [hj]
      unfold splitOnDot
      rw [splitOn_append_sep '.' p (joinDots (q :: qs)) (hdot p (by simp))]
      have := ih (by simp) (fun x hx => hdot x (by simp [hx]))
      unfold splitOnDot at this
      rw [this]

theorem padPartsFrom_length (ml : List Nat) (n : Nat) (parts : List PyStr) :
    (padPartsFrom ml n parts).length = parts.length := by
  induction parts generalizing n with
  | nil => rfl
  | cons p ps ih => simp [padPartsFrom, ih]

theorem padPartsFrom_getD (ml : List Nat) (n k : Nat) (parts : List PyStr)
    (hk : k < parts.length) :
    (padPartsFrom ml n parts).getD k []
      = padSeg (get ml (n + k)) (parts.getD k []) := by
  induction parts generalizing n k with
  | nil => cases hk
  | cons p ps ih =>
    cases k with
    | zero => simp [padPartsFrom]
    | succ j =>
      have hj : j < ps.length := by simpa using hk
      show (padSeg (get ml n) p :: padPartsFrom ml (n + 1) ps).getD (j + 1) []
        = padSeg (get ml (n + (j + 1))) ((p :: ps).getD (j + 1) [])
      rw [List.getD_cons_succ, List.getD_cons_succ, ih (n + 1) j hj]
      congr 2
      omega

theorem padPartsFrom_mem (ml : List Nat) (n : Nat) (parts : List PyStr) (q : PyStr)
    (hq : q ∈ padPartsFrom ml n parts) : ∃ p ∈ parts, ∃ w, q = padSeg w p := by
  induction parts generalizing n with
  | nil => cases hq
  | cons p ps ih =>
    rcases List.mem_cons.mp hq with hh | hh
    · exact ⟨p, by simp, get ml n, hh⟩
    · obtain ⟨p2, hp2, w, hw⟩ := ih (n + 1) hh
      exact ⟨p2, by simp [hp2], w, hw⟩

theorem map_decVal_padPartsFrom (ml : List Nat) (n : Nat) (parts : List PyStr) :
    (padPartsFrom ml n parts).map decVal = parts.map decVal := by
  induction parts generalizing n with
  | nil => rfl
  | cons p ps ih => simp [padPartsFrom, decVal_padSeg, ih]

theorem padPartsFrom_id (ml : List Nat) (n : Nat) (parts : List PyStr)
    (h : ∀ k, k < parts.length → get ml (n + k) ≤ (parts.getD k []).length) :
    padPartsFrom ml n parts = parts := by
  induction parts generalizing n with
  | nil => rfl
  | cons p ps ih =>
    have h0 : get ml n ≤ p.length := by
      have := h 0 (by simp)
      simpa using this
    show padSeg (get ml n) p :: padPartsFrom ml (n + 1) ps = p :: ps
    have hpad : padSeg (get ml n) p = p := by
      unfold padSeg
      have hz : get ml n - p.length = 0 := by omega
      rw [hz]
      rfl
    rw [hpad]
    congr 1
    apply ih
    intro k hk
    have hh := h (k + 1) (by simpa using hk)
    have e : n + (k + 1) = n + 1 + k := by omega
    rw [e, List.getD_cons_succ] at hh
    exact hh

theorem add_padding_length (strings : List PyStr) :
    (add_padding strings).length = strings.length := by
  unfold add_padding
  simp

theorem add_padding_getD (strings : List PyStr) (i : Nat) (hi : i < strings.length) :
    (add_padding strings).getD i []
      = joinDots (padPartsFrom (max_lengths_of strings) 0
          (splitOnDot (strings.getD i []))) := by
  unfold add_padding
  rw [List.getD_eq_getElem _ _ (by simp [hi]), List.getElem_map, List.getElem_map,
    List.getElem_map, List.getD_eq_getElem _ _ hi]

theorem get_max_lengths (strings : List PyStr) (k : Nat) :
    get (max_lengths_of strings) k = segMaxLen strings k := by
  have e1 : max_lengths_of strings
      = (List.range (maxNat ((strings.map splitOnDot).map List.length))).map
        (fun i => maxNat (((strings.map splitOnDot).map
          (fun parts => parts.map List.length)).map (fun l => get l i))) := rfl
  have e2 : ∀ j, ((strings.map splitOnDot).map
      (fun parts => parts.map List.length)).map (fun l => get l j)
        = strings.map (fun s => get ((splitOnDot s).map List.length) j) := by
    intro j
    rw [List.map_map, List.map_map]
    rfl
  by_cases hk : k < maxNat ((strings.map splitOnDot).map List.length)
  · rw [e1, get_in_range _ _ (by simpa using hk), List.getElem_map, List.getElem_range]
    unfold segMaxLen
    rw [e2 k]
  · have hlen : (max_lengths_of strings).length
        = maxNat ((strings.map splitOnDot).map List.length) := by
      rw [e1]
      simp
    rw [get_oob _ _ (by omega)]
    symm
    unfold segMaxLen
    have hz : ∀ x ∈ strings.map (fun s => get ((splitOnDot s).map List.length) k),
        x ≤ 0 := by
      intro x hx
      obtain ⟨s, hs, hx⟩ := List.mem_map.mp hx
      have hle : (splitOnDot s).length
          ≤ maxNat ((strings.map splitOnDot).map List.length) := by
        apply maxNat_ge
        rw [List.map_map]
        exact List.mem_map_of_mem _ hs
      have hoob : ((splitOnDot s).map List.length).length ≤ k := by
        simp only [List.length_map]
        omega
      rw [← hx, get_oob _ _ hoob]
    exact Nat.le_antisymm (maxNat_le _ 0 hz) (Nat.zero_le _)

theorem seg_le_segMaxLen (strings : List PyStr) (i k : Nat) (hi : i < strings.length)
    (hk : k < (splitOnDot (strings.getD i [])).length) :
    ((splitOnDot (strings.getD i [])).getD k []).length ≤ segMaxLen strings k := by
  unfold segMaxLen
  have hmem : strings.getD i [] ∈ strings := by
    rw [List.getD_eq_getElem _ _ hi]
    exact List.getElem_mem hi
  have e : get ((splitOnDot (strings.getD i [])).map List.length) k
      = ((splitOnDot (strings.getD i [])).getD k []).length := by
    rw [get_in_range _ _ (by simpa using hk), List.getElem_map,
      List.getD_eq_getElem _ _ hk]
  rw [← e]
  exact maxNat_ge _ _ (List.mem_map_of_mem _ hmem)

theorem numLexLt_cons_cons (a b : Nat) (as bs : List Nat) :
    numLexLt (a :: as) (b :: bs) = if a = b then numLexLt as bs else decide (a < b) :=
  rfl

theorem joinLex (u v : List PyStr)
    (hu : ∀ p ∈ u, p ≠ [] ∧ p.all isDigitCh = true)
    (hv : ∀ p ∈ v, p ≠ [] ∧ p.all isDigitCh = true)
    (hw : ∀ k, k < u.length → k < v.length →
      (u.getD k []).length = (v.getD k []).length) :
    lexLt (joinDots u) (joinDots v) = numLexLt (u.map decVal) (v.map decVal) := by
  induction u generalizing v with
  | nil =>
    cases v with
    | nil => rfl
    | cons q qs =>
      have hq := hv q (by simp)
      rw [joinDots_cons]
      cases hcq : q with
      | nil => exact absurd hcq hq.1
      | cons c cs => simp [lexLt, numLexLt]
  | cons p ps ih =>
    cases v with
    | nil =>
      have hp := hu p (by simp)
      rw [joinDots_cons]
      cases hcp : p with
      | nil => exact absurd hcp hp.1
      | cons c cs => simp [lexLt, numLexLt]
    | cons q qs =>
      have hp := hu p (by simp)
      have hq := hv q (by simp)
      have hlen : p.length = q.length := by
        have := hw 0 (by simp) (by simp)
        simpa using this
      rw [joinDots_cons, joinDots_cons]
      by_cases hpq : p = q
      · subst hpq
        rw [lexLt_append_left]
        have hr : numLexLt ((p :: ps).map decVal) ((p :: qs).map decVal)
            = numLexLt (ps.map decVal) (qs.map decVal) := by
          show numLexLt (decVal p :: ps.map decVal) (decVal p :: qs.map decVal) = _
          rw [numLexLt_cons_cons, if_pos rfl]
        rw [hr]
        have hw' : ∀ k, k < ps.length → k < qs.length →
            (ps.getD k []).length = (qs.getD k []).length := by
          intro k h1 h2
          have := hw (k + 1) (by simp; omega) (by simp; omega)
          simpa using this
        have ihh := ih qs (fun x hx => hu x (by simp [hx]))
          (fun x hx => hv x (by simp [hx])) hw'
        cases ps with
        | nil =>
          cases qs with
          | nil => rfl
          | cons b bs =>
            have hb := hv b (by simp)
            cases hcb : b with
            | nil => exact absurd hcb hb.1
            | cons c cs =>
              rw [joinDots_cons]
              simp [lexLt, numLexLt]
        | cons a as =>
          cases qs with
          | nil =>
            simp [lexLt, numLexLt]
          | cons b bs =>
            have e1 : ((a :: as : List PyStr).isEmpty) = false := rfl
            have e2 : ((b :: bs : List PyStr).isEmpty) = false := rfl
            rw [e1, e2]
            simp only [Bool.false_eq_true, if_false]
            rw [lexLt_cons_cons, if_pos rfl]
            exact ihh
      · rw [lexLt_append_ne p q _ _ hlen hpq]
        have hiff := lexLt_iff_decVal p q hlen hp.2 hq.2
        have hiff2 := lexLt_iff_decVal q p hlen.symm hq.2 hp.2
        have hval : decVal p ≠ decVal q := by
          intro he
          apply hpq
          apply lexLt_double_false
          · cases hb : lexLt p q
            · rfl
            · have := hiff.mp hb
              omega
          · cases hb : lexLt q p
            · rfl
            · have := hiff2.mp hb
              omega
        have hm : ((p :: ps).map decVal) = decVal p :: ps.map decVal := rfl
        have hm2 : ((q :: qs).map decVal) = decVal q :: qs.map decVal := rfl
        rw [hm, hm2, numLexLt_cons_cons, if_neg hval]
        cases hb : lexLt p q
        · have hn : ¬(decVal p < decVal q) := by
            intro hlt
            rw [hiff.mpr hlt] at hb
            cases hb
          simp [hn]
        · have := hiff.mp hb
          simp [this]

theorem padSeg_props (w : Nat) (p : PyStr) (hp : p ≠ [] ∧ p.all isDigitCh = true) :
    padSeg w p ≠ [] ∧ (padSeg w p).all isDigitCh = true := by
  constructor
  · unfold padSeg
    intro h
    exact hp.1 (List.append_eq_nil.mp h).2
  · unfold padSeg
    rw [List.all_append]
    have hz : (List.replicate (w - p.length) '0').all isDigitCh = true := by
      rw [List.all_eq_true]
      intro x hx
      rw [List.eq_of_mem_replicate hx]
      decide
    rw [hz, hp.2]
    rfl

theorem padSeg_length_of_le (w : Nat) (p : PyStr) (h : p.length ≤ w) :
    (padSeg w p).length = w := by
  unfold padSeg
  rw [List.length_append, List.length_replicate]
  omega

theorem padSeg_length_ge (w : Nat) (p : PyStr) : w ≤ (padSeg w p).length := by
  unfold padSeg
  rw [List.length_append, List.length_replicate]
  omega

/-- C5: after add_padding is applied to a sibling set of dotted decimal
strings, plain lexicographic comparison of any two padded outputs agrees with
segment-by-segment numeric comparison of the corresponding original dotted
inputs, both for strict order and for equality. -/
theorem add_padding_lex_agrees_numeric (strings : List PyStr)
    (hne : strings ≠ [])
    (hdot : ∀ s ∈ strings, ∀ seg ∈ splitOnDot s, seg ≠ [] ∧ seg.all isDigitCh = true)
    (i j : Nat) (hi : i < strings.length) (hj : j < strings.length) :
    (lexLt ((add_padding strings).getD i []) ((add_padding strings).getD j [])
      = numLexLt ((splitOnDot (strings.getD i [])).map decVal)
          ((splitOnDot (strings.getD j [])).map decVal)) ∧
    (((add_padding strings).getD i []) = ((add_padding strings).getD j []) ↔
      (splitOnDot (strings.getD i [])).map decVal
        = (splitOnDot (strings.getD j [])).map decVal) := by
  have hstr : ∀ a, a < strings.length → strings.getD a [] ∈ strings := by
    intro a ha
    rw [List.getD_eq_getElem _ _ ha]
    exact List.getElem_mem ha
  have key : ∀ a b, ∀ (ha : a < strings.length) (hb : b < strings.length),
      lexLt ((add_padding strings).getD a []) ((add_padding strings).getD b [])
        = numLexLt ((splitOnDot (strings.getD a [])).map decVal)
            ((splitOnDot (strings.getD b [])).map decVal) := by
    intro a b ha hb
    rw [add_padding_getD _ _ ha, add_padding_getD _ _ hb]
    have hu : ∀ p ∈ padPartsFrom (max_lengths_of strings) 0
        (splitOnDot (strings.getD a [])), p ≠ [] ∧ p.all isDigitCh = true := by
      intro p hp
      obtain ⟨p0, hp0, w, hw0⟩ := padPartsFrom_mem _ _ _ _ hp
      rw [hw0]
      exact padSeg_props w p0 (hdot _ (hstr a ha) p0 hp0)
    have hv : ∀ p ∈ padPartsFrom (max_lengths_of strings) 0
        (splitOnDot (strings.getD b [])), p ≠ [] ∧ p.all isDigitCh = true := by
      intro p hp
      obtain ⟨p0, hp0, w, hw0⟩ := padPartsFrom_mem _ _ _ _ hp
      rw [hw0]
      exact padSeg_props w p0 (hdot _ (hstr b hb) p0 hp0)
    have hpadlen : ∀ c, ∀ (hc : c < strings.length), ∀ k,
        k < (splitOnDot (strings.getD c [])).length →
        ((padPartsFrom (max_lengths_of strings) 0
          (splitOnDot (strings.getD c []))).getD k []).length
          = segMaxLen strings k := by
      intro c hc k hk
      rw [padPartsFrom_getD _ _ _ _ hk, Nat.zero_add, get_max_lengths]
      exact padSeg_length_of_le _ _ (seg_le_segMaxLen strings c k hc hk)
    have hw : ∀ k, k < (padPartsFrom (max_lengths_of strings) 0
          (splitOnDot (strings.getD a []))).length →
        k < (padPartsFrom (max_lengths_of strings) 0
          (splitOnDot (strings.getD b []))).length →
        ((padPartsFrom (max_lengths_of strings) 0
          (splitOnDot (strings.getD a []))).getD k []).length
          = ((padPartsFrom (max_lengths_of strings) 0
            (splitOnDot (strings.getD b []))).getD k []).length := by
      intro k h1 h2
      rw [padPartsFrom_length] at h1 h2
      rw [hpadlen a ha k h1, hpadlen b hb k h2]
    rw [joinLex _ _ hu hv hw, map_decVal_padPartsFrom, map_decVal_padPartsFrom]
  refine ⟨key i j hi hj, ?_, ?_⟩
  · intro heq
    apply numLexLt_double_false
    · rw [← key i j hi hj, heq, lexLt_irrefl]
    · rw [← key j i hj hi, ← heq, lexLt_irrefl]
  · intro hveq
    apply lexLt_double_false
    · rw [key i j hi hj, hveq, numLexLt_irrefl]
    · rw [key j i hj hi, ← hveq, numLexLt_irrefl]

/-- C5 (witness): the sibling set 9 and 10 pads to 09 and 10, and the padded
lexicographic comparison agrees with the numeric comparison. -/
theorem add_padding_lex_agrees_numeric_witness :
    (lexLt ((add_padding ["9".toList, "10".toList]).getD 0 [])
        ((add_padding ["9".toList, "10".toList]).getD 1 [])
      = numLexLt ((splitOnDot (["9".toList, "10".toList].getD 0 [])).map decVal)
          ((splitOnDot (["9".toList, "10".toList].getD 1 [])).map decVal)) ∧
    (((add_padding ["9".toList, "10".toList]).getD 0 [])
        = ((add_padding ["9".toList, "10".toList]).getD 1 []) ↔
      (splitOnDot (["9".toList, "10".toList].getD 0 [])).map decVal
        = (splitOnDot (["9".toList, "10".toList].getD 1 [])).map decVal) :=
  add_padding_lex_agrees_numeric ["9".toList, "10".toList] (by decide) (by decide)
    0 1 (by decide) (by decide)

/-- C10: add_padding preserves the length and order of its input and the
number of dotted segments of every element; every output segment is the input
segment left-padded with zeros to the maximum segment length at that position
across the whole input list; and add_padding is idempotent. -/
theorem add_padding_shape_idempotent (strings : List PyStr)
    (hne : strings ≠ []) (hs : ∀ s ∈ strings, s ≠ []) :
    (add_padding strings).length = strings.length ∧
    (∀ i, i < strings.length →
      (splitOnDot ((add_padding strings).getD i [])).length
        = (splitOnDot (strings.getD i [])).length ∧
      ∀ k, k < (splitOnDot (strings.getD i [])).length →
        (splitOnDot ((add_padding strings).getD i [])).getD k []
          = padSeg (segMaxLen strings k)
              ((splitOnDot (strings.getD i [])).getD k [])) ∧
    add_padding (add_padding strings) = add_padding strings := by
  have hsplit : ∀ i, i < strings.length →
      splitOnDot ((add_padding strings).getD i [])
        = padPartsFrom (max_lengths_of strings) 0 (splitOnDot (strings.getD i [])) := by
    intro i hi
    rw [add_padding_getD _ _ hi]
    apply splitOnDot_joinDots
    · intro h
      have hlen := padPartsFrom_length (max_lengths_of strings) 0
        (splitOnDot (strings.getD i []))
      rw [h] at hlen
      have hnil : splitOnDot (strings.getD i []) = [] :=
        List.length_eq_zero.mp hlen.symm
      exact splitOn_ne_nil '.' _ hnil
    · intro p hp
      obtain ⟨p0, hp0, w, hw0⟩ := padPartsFrom_mem _ _ _ _ hp
      rw [hw0]
      unfold padSeg
      intro hmem
      rcases List.mem_append.mp hmem with hh | hh
      · have := List.eq_of_mem_replicate hh
        exact absurd this (by decide)
      · exact splitOn_sep_not_mem '.' _ p0 hp0 hh
  refine ⟨add_padding_length strings, ?_, ?_⟩
  · intro i hi
    constructor
    · rw [hsplit i hi, padPartsFrom_length]
    · intro k hk
      rw [hsplit i hi, padPartsFrom_getD _ _ _ _ hk, Nat.zero_add, get_max_lengths]
  · have hlen2 : (add_padding strings).length = strings.length :=
      add_padding_length strings
    have hsm : ∀ k, segMaxLen (add_padding strings) k ≤ segMaxLen strings k := by
      intro k
      show maxNat ((add_padding strings).map
        (fun s => get ((splitOnDot s).map List.length) k)) ≤ segMaxLen strings k
      apply maxNat_le
      intro x hx
      obtain ⟨s2, hs2, hx⟩ := List.mem_map.mp hx
      obtain ⟨n, hn, hgn⟩ := List.mem_iff_getElem.mp hs2
      have hns : n < strings.length := by omega
      have hget : (add_padding strings).getD n [] = s2 := by
        rw [List.getD_eq_getElem _ _ hn, hgn]
      have e1 : splitOnDot s2
          = padPartsFrom (max_lengths_of strings) 0
              (splitOnDot (strings.getD n [])) := by
        rw [← hget]
        exact hsplit n hns
      by_cases hk : k < (splitOnDot s2).length
      · have e0 : get ((splitOnDot s2).map List.length) k
            = ((splitOnDot s2).getD k []).length := by
          rw [get_in_range _ _ (by simpa using hk), List.getElem_map,
            List.getD_eq_getElem _ _ hk]
        have hk' : k < (splitOnDot (strings.getD n [])).length := by
          rw [e1, padPartsFrom_length] at hk
          exact hk
        have e2 : (splitOnDot s2).getD k []
            = padSeg (segMaxLen strings k)
                ((splitOnDot (strings.getD n [])).getD k []) := by
          rw [e1, padPartsFrom_getD _ _ _ _ hk', Nat.zero_add, get_max_lengths]
        rw [← hx, e0, e2,
          padSeg_length_of_le _ _ (seg_le_segMaxLen strings n k hns hk')]
      · rw [← hx, get_oob _ _ (by simp; omega)]
        exact Nat.zero_le _
    apply List.ext_getElem
    · rw [add_padding_length, hlen2]
    · intro n h1 h2
      have hns : n < strings.length := by omega
      have e1 : splitOnDot ((add_padding strings).getD n [])
          = padPartsFrom (max_lengths_of strings) 0
              (splitOnDot (strings.getD n [])) := hsplit n hns
      have hfix : padPartsFrom (max_lengths_of (add_padding strings)) 0
          (splitOnDot ((add_padding strings).getD n []))
            = splitOnDot ((add_padding strings).getD n []) := by
        apply padPartsFrom_id
        intro k hk
        rw [Nat.zero_add, get_max_lengths]
        have hk' : k < (splitOnDot (strings.getD n [])).length := by
          rw [e1, padPartsFrom_length] at hk
          exact hk
        have e2 : (splitOnDot ((add_padding strings).getD n [])).getD k []
            = padSeg (segMaxLen strings k)
                ((splitOnDot (strings.getD n [])).getD k []) := by
          rw [e1, padPartsFrom_getD _ _ _ _ hk', Nat.zero_add, get_max_lengths]
        rw [e2, padSeg_length_of_le _ _ (seg_le_segMaxLen strings n k hns hk')]
        exact hsm k
      have hgoal : (add_padding (add_padding strings)).getD n []
          = (add_padding strings).getD n [] := by
        rw [add_padding_getD _ _ h2, hfix, e1,
          ← add_padding_getD strings n hns]
      rw [← List.getD_eq_getElem _ ([] : PyStr) h1,
        ← List.getD_eq_getElem _ ([] : PyStr) h2]
      exact hgoal

/-- C10 (witness): the shape statement and idempotence at the concrete sibling
set 9 and 10. -/
theorem add_padding_shape_idempotent_witness :
    (add_padding ["9".toList, "10".toList]).length
      = (["9".toList, "10".toList] : List PyStr).length ∧
    (∀ i, i < (["9".toList, "10".toList] : List PyStr).length →
      (splitOnDot ((add_padding ["9".toList, "10".toList]).getD i [])).length
        = (splitOnDot (["9".toList, "10".toList].getD i [])).length ∧
      ∀ k, k < (splitOnDot (["9".toList, "10".toList].getD i [])).length →
        (splitOnDot ((add_padding ["9".toList, "10".toList]).getD i [])).getD k []
          = padSeg (segMaxLen ["9".toList, "10".toList] k)
              ((splitOnDot (["9".toList, "10".toList].getD i [])).getD k [])) ∧
    add_padding (add_padding ["9".toList, "10".toList])
      = add_padding ["9".toList, "10".toList] :=
  add_padding_shape_idempotent ["9".toList, "10".toList] (by decide) (by decide)

end RomsetGen
